import Mathlib

/-!
Verification development for the pypdf core subsystems: the PDF object
model with indirect-object resolution, the cross-reference index merge,
the stream filter codecs, and the standard security handler.

Bytes are modelled as `Nat` values (with `< 256` bounds stated where a
property needs them); byte strings are `List Nat`.  Fallible operations
return `Except String`.  Functions whose bodies are present in the
source are translated from it; functions whose bodies are absent from
the source tree (only their declarations and docstrings are) are
modelled from the specification, and say so in their doc comments.
-/

namespace Pypdf

/-- Little-endian byte serialisation of `n` on `w` bytes
(`struct.pack("<I", n)` style). -/
def natToLE : Nat → Nat → List Nat
  | 0, _ => []
  | w + 1, n => n % 256 :: natToLE w (n / 256)

/-- Little-endian byte deserialisation. -/
def leToNat : List Nat → Nat
  | [] => 0
  | b :: bs => b + 256 * leToNat bs

/-- Big-endian digit value in base `b`. -/
def beVal (b : Nat) (l : List Nat) : Nat := l.foldl (fun a d => b * a + d) 0

/-- Big-endian digit expansion of `n` on `w` digits in base `b`. -/
def natToBaseBE (b : Nat) : Nat → Nat → List Nat
  | 0, _ => []
  | w + 1, n => n / b ^ w % b :: natToBaseBE b w (n % b ^ w)

/-- Big-endian byte deserialisation. -/
def beToNat (bs : List Nat) : Nat := beVal 256 bs

/-- Big-endian byte serialisation of `n` on `w` bytes. -/
def natToBE (w n : Nat) : List Nat := natToBaseBE 256 w n

/-!
## Cross-reference index merge

Modelled from the spec: the body of `PdfReader.read` / the xref-section
parsers is absent from the source tree (`PdfReader.__init__` only
initialises `self.xref` and calls `self.read`), so the merge of the
sections reached by walking the trailer's `/Prev` chain is modelled from
the specification: each section's entries are merged into the running
index, preferring the first-seen entry for any given object number.
-/

/-- A cross-reference entry: a byte offset, a free entry, or a location
inside an object stream. -/
inductive XrefEntry where
  | offset (pos : Nat)
  | free (nextFree : Nat)
  | inStream (objstm idx : Nat)
deriving DecidableEq, Repr

/-- One xref section: the (object number, entry) pairs it defines, in
file order. -/
abbrev XrefSection := List (Nat × XrefEntry)

/-- Modelled from the spec: merge one section into the running index,
keeping any entry already present (first-seen wins). -/
def mergeXrefSection (idx : XrefSection) (sec : XrefSection) : XrefSection :=
  sec.foldl (fun acc e => if (acc.lookup e.1).isSome then acc else acc ++ [e]) idx

/-- Modelled from the spec: the merged index built by walking the xref
chain, most recent section first (the order the `/Prev` links are
followed at document open). -/
def buildXrefIndex (chain : List XrefSection) : XrefSection :=
  chain.foldl mergeXrefSection []

/-- Reference lookup: the entry for `n` in the first section of the
chain that defines `n`. -/
def firstSectionLookup (chain : List XrefSection) (n : Nat) : Option XrefEntry :=
  match chain with
  | [] => none
  | s :: rest =>
    match s.lookup n with
    | some e => some e
    | none => firstSectionLookup rest n

/-- First-defined choice on optional entries. -/
def optFirst (a b : Option XrefEntry) : Option XrefEntry :=
  match a with
  | some v => some v
  | none => b

/-!
## The primitive object model

Translated from `pypdf/generic/_base.py` and
`pypdf/generic/_data_structures.py`.  The nine object kinds of the data
model become one inductive type; host-language values that are not PDF
objects (raw Python strings, ints, `None`) are represented by the
wrapper `PyValue`, so that the runtime `isinstance(·, PdfObject)` checks
of the source can be expressed.
-/

/-- The PDF primitive object model (null, boolean, number, real, name,
string, array, dictionary, indirect reference). -/
inductive PdfObj where
  | nullObj
  | boolObj (b : Bool)
  | numObj (n : Int)
  | realObj (q : Rat)
  | nameObj (s : String)
  | stringObj (bytes : List Nat)
  | arrayObj (items : List PdfObj)
  | dictObj (entries : List (PdfObj × PdfObj))
  | indirectRef (idnum gen : Nat)
deriving Repr

mutual

/-- Structural equality test on PDF objects (the `__eq__` notion the
source's containers compare keys with). -/
def pdfObjBeq : PdfObj → PdfObj → Bool
  | .nullObj, .nullObj => true
  | .boolObj a, .boolObj b => a == b
  | .numObj a, .numObj b => a == b
  | .realObj a, .realObj b => a == b
  | .nameObj a, .nameObj b => a == b
  | .stringObj a, .stringObj b => a == b
  | .arrayObj a, .arrayObj b => pdfListBeq a b
  | .dictObj a, .dictObj b => pdfPairsBeq a b
  | .indirectRef a b, .indirectRef c d => a == c && b == d
  | _, _ => false

/-- Pointwise equality test on object lists. -/
def pdfListBeq : List PdfObj → List PdfObj → Bool
  | [], [] => true
  | x :: xs, y :: ys => pdfObjBeq x y && pdfListBeq xs ys
  | _, _ => false

/-- Pointwise equality test on dictionary entry lists. -/
def pdfPairsBeq : List (PdfObj × PdfObj) → List (PdfObj × PdfObj) → Bool
  | [], [] => true
  | x :: xs, y :: ys => pdfObjBeq x.1 y.1 && pdfObjBeq x.2 y.2 && pdfPairsBeq xs ys
  | _, _ => false

end

/-- Is the object an unresolved indirect reference? -/
def isRef : PdfObj → Bool
  | .indirectRef _ _ => true
  | _ => false

/-- A host-language value: either a PDF object or a raw Python value
(the kind `DictionaryObject.__setitem__` must reject). -/
inductive PyValue where
  | pdf (o : PdfObj)
  | pyStr (s : String)
  | pyInt (n : Int)
  | pyBytes (bs : List Nat)
  | pyNone
deriving Repr

/-- The runtime `isinstance(value, PdfObject)` check. -/
def isPdfValue : PyValue → Bool
  | .pdf _ => true
  | _ => false

/-- Is the value a PDF Name object? -/
def isNameValue : PyValue → Bool
  | .pdf (.nameObj _) => true
  | _ => false

/-- Hashability of a PDF object as a Python `dict` key, read off the
source's class definitions: `BooleanObject` and `IndirectObject` define
`__eq__` with no `__hash__` (so Python sets their `__hash__` to `None`
and they are unhashable), and `ArrayObject`/`DictionaryObject` subclass
`list`/`dict`, which are unhashable; the remaining classes inherit a
usable `__hash__` — `NullObject` from `object`, the number, string and
name classes from `int`, `float`, `bytes` and `str`. -/
def pdfObjHashable : PdfObj → Bool
  | .boolObj _ => false
  | .indirectRef _ _ => false
  | .arrayObj _ => false
  | .dictObj _ => false
  | _ => true

/-- Hashability of a host value as a Python `dict` key: the raw host
values modelled here (`str`, `int`, `bytes`, `None`) are hashable, a
PDF object according to its class. -/
def pyValueHashable : PyValue → Bool
  | .pdf o => pdfObjHashable o
  | _ => true

/-- Equality test on host values (PDF objects compare structurally). -/
def pyValueBeq : PyValue → PyValue → Bool
  | .pdf a, .pdf b => pdfObjBeq a b
  | .pyStr a, .pyStr b => a == b
  | .pyInt a, .pyInt b => a == b
  | .pyBytes a, .pyBytes b => a == b
  | .pyNone, .pyNone => true
  | _, _ => false

/-- The untyped underlying dictionary: what Python's `dict` base class
stores, with no constraint on the kinds of keys and values. -/
abbrev RawDict := List (PyValue × PyValue)

/-- The entry update a successful `dict.__setitem__` performs: replace
the value of the first entry with an equal key, else append a new
entry. -/
def rawDictInsert (d : RawDict) (k v : PyValue) : RawDict :=
  match d with
  | [] => [(k, v)]
  | (k0, v0) :: rest =>
    if pyValueBeq k k0 then (k0, v) :: rest
    else (k0, v0) :: rawDictInsert rest k v

/-- Python `dict.__setitem__`: hashing the key raises `TypeError` when
the key is unhashable, otherwise the entry is stored. -/
def rawDictSet (d : RawDict) (k v : PyValue) : Except String RawDict :=
  if ¬ pyValueHashable k then .error "unhashable type"
  else .ok (rawDictInsert d k v)

/-- Python `dict.__getitem__`: the value of the first entry with an
equal key. -/
def rawDictGet (d : RawDict) (k : PyValue) : Option PyValue :=
  match d with
  | [] => none
  | (k0, v0) :: rest => if pyValueBeq k k0 then some v0 else rawDictGet rest k

/-- `DictionaryObject.__setitem__`, translated from the source: reject
a key that is not a `PdfObject` with a `ValueError`, reject a value
that is not a `PdfObject` with a `ValueError`, and otherwise delegate
to `dict.__setitem__`, which itself raises `TypeError` for an
unhashable key. -/
def dictSetItem (d : RawDict) (k v : PyValue) : Except String RawDict :=
  if ¬ isPdfValue k then .error "key must be PdfObject"
  else if ¬ isPdfValue v then .error "value must be PdfObject"
  else rawDictSet d k v

/-- Apply a sequence of public `__setitem__` mutations; a rejected
mutation (its `ValueError` or `TypeError`) leaves the dictionary
unchanged. -/
def applySetItems (d : RawDict) (ops : List (PyValue × PyValue)) : RawDict :=
  ops.foldl
    (fun acc op =>
      match dictSetItem acc op.1 op.2 with
      | .ok d2 => d2
      | .error _ => acc) d

/-- Every key and every value stored in the dictionary is a PDF
object. -/
def wfDict (d : RawDict) : Prop :=
  ∀ e ∈ d, isPdfValue e.1 = true ∧ isPdfValue e.2 = true

/-!
## Indirect-object resolution

Modelled from the spec: the bodies of `PdfObject.get_object`,
`IndirectObject._get_object_with_check` and `PdfReader.get_object` are
absent from the source tree, so resolution is modelled from the
specification: resolving an id looks it up in the document's object
table and follows indirect references; a resolution already in progress
for the same (object number, generation) — tracked by the `visiting`
list — is detected and returns a null placeholder instead of recursing
without bound.
-/

/-- The document's object table: (object number, generation) to stored
object. -/
abbrev ObjectTable := List ((Nat × Nat) × PdfObj)

theorem filter_keys_cons_lt
    (keys : List (Nat × Nat)) (visiting : List (Nat × Nat)) (a : Nat × Nat)
    (hin : a ∈ keys) (hout : a ∉ visiting) :
    (keys.filter (fun k => k ∉ a :: visiting)).length
      < (keys.filter (fun k => k ∉ visiting)).length := by
  induction keys with
  | nil => cases hin
  | cons b ks ih =>
    have hmono : ((ks.filter (fun k => k ∉ a :: visiting)).length
        ≤ (ks.filter (fun k => k ∉ visiting)).length) := by
      have hsub : (ks.filter (fun k => k ∉ a :: visiting)).Sublist
          (ks.filter (fun k => k ∉ visiting)) := by
        apply List.monotone_filter_right
        intro k hk
        simp only [decide_eq_true_eq] at hk ⊢
        intro hmem
        exact hk (List.mem_cons_of_mem _ hmem)
      exact hsub.length_le
    by_cases hb : b = a
    · subst hb
      have h1 : (decide (b ∉ b :: visiting)) = false := by simp
      have h2 : (decide (b ∉ visiting)) = true := by simpa using hout
      rw [List.filter_cons, List.filter_cons, h1, h2]
      simp only [Bool.false_eq_true, if_false, if_true, List.length_cons]
      omega
    · have hin2 : a ∈ ks := by
        rcases List.mem_cons.mp hin with h | h
        · exact absurd h.symm hb
        · exact h
      have hsame : (decide (b ∉ a :: visiting)) = (decide (b ∉ visiting)) := by
        by_cases hbv : b ∈ visiting
        · simp [hbv]
        · simp [hbv, List.mem_cons, hb, Ne.symm hb]
      rw [List.filter_cons, List.filter_cons, hsame]
      cases hdec : decide (b ∉ visiting) with
      | false =>
        simp only [Bool.false_eq_true, if_false]
        exact ih hin2
      | true =>
        simp only [if_true, List.length_cons]
        exact Nat.succ_lt_succ (ih hin2)

theorem mem_keys_of_lookup {α β : Type} [BEq α] [LawfulBEq α]
    {l : List (α × β)} {a : α} {b : β} (h : l.lookup a = some b) :
    a ∈ l.map Prod.fst := by
  induction l with
  | nil => simp [List.lookup] at h
  | cons e rest ih =>
    by_cases he : a == e.1
    · simp only [List.map_cons, List.mem_cons]
      exact Or.inl (eq_of_beq he)
    · simp only [List.lookup, he] at h
      exact List.mem_cons_of_mem _ (ih h)

/-- Modelled from the spec: resolve the object stored under `id`,
following chains of indirect references; an id whose resolution is
already in progress (member of `visiting`) yields the null-object
placeholder, as does an id absent from the table. -/
def resolveRef (table : ObjectTable) (visiting : List (Nat × Nat))
    (id : Nat × Nat) : PdfObj :=
  if hv : id ∈ visiting then .nullObj
  else
    match hl : table.lookup id with
    | none => .nullObj
    | some (.indirectRef n g) => resolveRef table (id :: visiting) (n, g)
    | some v => v
termination_by ((table.map Prod.fst).filter (fun k => k ∉ visiting)).length
decreasing_by
  exact filter_keys_cons_lt (table.map Prod.fst) visiting id
    (mem_keys_of_lookup hl) hv

/-- `get_object`, modelled from the spec: any object resolves to
itself; an indirect reference triggers resolution through the owning
document's table. -/
def getObject (table : ObjectTable) : PdfObj → PdfObj
  | .indirectRef n g => resolveRef table [] (n, g)
  | v => v

/-- `DictionaryObject.__getitem__`, translated from the source:
`dict.__getitem__(self, key).get_object()` — look the key up in the
underlying dict and resolve the stored value. -/
def dictGetItem (table : ObjectTable) (d : RawDict) (k : PyValue) :
    Option PdfObj :=
  match rawDictGet d k with
  | some (.pdf o) => some (getObject table o)
  | _ => none

/-!
## Numeric token construction

`NumberObject.__new__` and `FloatObject.__new__` are present in the
source: they call the host conversions `int(value)` / `float(str_(value))`
and, when those raise a `ValueError`, substitute 0 / 0.0 and report a
recoverable warning (`logger_warning`).  The host conversions are
modelled below for text input: Python's decimal grammar with optional
surrounding whitespace, an optional sign, underscores allowed only
between digits, and for `float` an optional fraction, an optional
exponent and the special words `inf`/`infinity`/`nan`.  Real values are
modelled as exact rationals — binary rounding and overflow to infinity
are outside the model.  A construction is modelled as the pair
(value, warned). -/

/-- ASCII whitespace accepted around Python numeric literals: space,
tab, LF, CR, VT, FF. -/
def isSpaceChar (c : Char) : Bool :=
  c.toNat = 32 || c.toNat = 9 || c.toNat = 10 || c.toNat = 13
    || c.toNat = 11 || c.toNat = 12

/-- ASCII decimal digit test. -/
def isDigitChar (c : Char) : Bool :=
  48 ≤ c.toNat && c.toNat ≤ 57

/-- Value of an ASCII decimal digit. -/
def digitVal (c : Char) : Nat := c.toNat - 48

/-- Scan a run of decimal digits in which an underscore may appear only
between two digits.  Returns the accumulated value, the digit count and
the unread remainder; `none` on a misplaced underscore. -/
def scanUDigits : List Char → Nat → Nat → Option (Nat × Nat × List Char)
  | [], acc, cnt => some (acc, cnt, [])
  | c :: cs, acc, cnt =>
    if isDigitChar c then scanUDigits cs (10 * acc + digitVal c) (cnt + 1)
    else if c = '_' && 0 < cnt then
      match cs with
      | c2 :: cs2 =>
        if isDigitChar c2 then scanUDigits cs2 (10 * acc + digitVal c2) (cnt + 1)
        else none
      | [] => none
    else some (acc, cnt, c :: cs)

/-- Parse a complete digit run (Python `int` body after the sign). -/
def parseUDigits (l : List Char) : Option Nat :=
  match scanUDigits l 0 0 with
  | some (v, cnt, []) => if 0 < cnt then some v else none
  | _ => none

/-- Strip surrounding whitespace. -/
def stripChars (l : List Char) : List Char :=
  ((l.dropWhile isSpaceChar).reverse.dropWhile isSpaceChar).reverse

/-- Python's `int(str)` conversion on text. -/
def pyIntOfString (s : String) : Option Int :=
  match stripChars s.toList with
  | '+' :: rest => (parseUDigits rest).map (fun n => (n : Int))
  | '-' :: rest => (parseUDigits rest).map (fun n => -(n : Int))
  | rest => (parseUDigits rest).map (fun n => (n : Int))

/-- The value domain of Python's `float`: a finite value (modelled
exactly as a rational), the two infinities, or NaN. -/
inductive PyFloat where
  | fin (q : Rat)
  | inf
  | ninf
  | nan
deriving DecidableEq, Repr

/-- Assemble a finite float value from sign, integer part, fraction
digits (value and count) and exponent. -/
def mkFloatRat (neg : Bool) (ip fv fc : Nat) (eneg : Bool) (ev : Nat) : Rat :=
  let mant : Rat := ((ip * 10 ^ fc + fv : Nat) : Rat) / ((10 ^ fc : Nat) : Rat)
  let scaled : Rat :=
    if eneg then mant / ((10 ^ ev : Nat) : Rat) else mant * ((10 ^ ev : Nat) : Rat)
  if neg then -scaled else scaled

/-- Consume an optional leading sign; `true` means negative. -/
def parseSign : List Char → Bool × List Char
  | '+' :: r => (false, r)
  | '-' :: r => (true, r)
  | r => (false, r)

/-- Python's `float(str)` conversion on text. -/
def pyFloatOfString (s : String) : Option PyFloat :=
  let l := stripChars s.toList
  let signed := parseSign l
  let sgnNeg := signed.1
  let rest := signed.2
  let low := rest.map Char.toLower
  if low = ['i', 'n', 'f'] || low = ['i', 'n', 'f', 'i', 'n', 'i', 't', 'y'] then
    some (if sgnNeg then PyFloat.ninf else PyFloat.inf)
  else if low = ['n', 'a', 'n'] then some PyFloat.nan
  else
    match scanUDigits rest 0 0 with
    | none => none
    | some (ip, ipCnt, r1) =>
      let fracStep : Option (Nat × Nat × List Char) :=
        match r1 with
        | '.' :: r => scanUDigits r 0 0
        | r => some (0, 0, r)
      match fracStep with
      | none => none
      | some (fv, fc, r2) =>
        if ipCnt + fc = 0 then none
        else
          match r2 with
          | [] => some (.fin (mkFloatRat sgnNeg ip fv fc false 0))
          | c :: r3 =>
            if c = 'e' || c = 'E' then
              let esigned := parseSign r3
              match scanUDigits esigned.2 0 0 with
              | some (ev, ec, []) =>
                if 0 < ec then some (.fin (mkFloatRat sgnNeg ip fv fc esigned.1 ev))
                else none
              | _ => none
            else none

/-- `NumberObject.__new__`, translated from the source: `int(value)`
under a `try`, with a `ValueError` replaced by the value 0 plus a
logged warning.  The Boolean records whether the warning path was
taken. -/
def numberObjectNew (s : String) : Int × Bool :=
  match pyIntOfString s with
  | some n => (n, false)
  | none => (0, true)

/-- `FloatObject.__new__`, translated from the source:
`float(str_(value))` under a `try`, with a conversion error replaced by
the value 0.0 plus a logged warning. -/
def floatObjectNew (s : String) : PyFloat × Bool :=
  match pyFloatOfString s with
  | some v => (v, false)
  | none => (.fin 0, true)

/-- Decimal value of a plain digit list (most significant first). -/
def digitsVal (l : List Char) : Nat :=
  l.foldl (fun a c => 10 * a + digitVal c) 0

/-!
## Stream filter codecs

The decode bodies of `filters.py` are absent from the source tree, so
each decoder is modelled from the specification's description of its
format (RunLength per the class docstring's PackBits rules, ASCIIHex
and ASCII85 as textual-to-binary inverses with whitespace tolerance,
`z` shorthand and the `~>` terminator, LZW as the variable-bit-width
9–12 code decoder with dictionary reset on 256 and stop on 257, Flate
as zlib framing over DEFLATE).  The encoders are modelled from the spec
as producers of the corresponding formats; for Flate the encoder is
zlib at compression level 0, which emits stored (type-0) DEFLATE
blocks — Huffman-compressed blocks are outside the model. -/

/-- Whitespace bytes tolerated inside the textual filters. -/
def isWsByte (c : Nat) : Bool :=
  c = 32 || c = 10 || c = 13 || c = 9 || c = 11 || c = 12 || c = 0

/-- Modelled from the spec: RunLength decoding — a length byte 0–127
copies the next length+1 bytes, 129–255 repeats the next byte
257−length times, 128 is end-of-data; running out of input is an
error. -/
def runLengthDecode (data : List Nat) : Except String (List Nat) :=
  match data with
  | [] => .error "Unexpected EOD in RunLengthDecode"
  | l :: rest =>
    if l = 128 then .ok []
    else if l < 128 then
      if rest.length < l + 1 then .error "Unexpected EOD in RunLengthDecode"
      else
        Except.map (fun tail => rest.take (l + 1) ++ tail)
          (runLengthDecode (rest.drop (l + 1)))
    else
      match rest with
      | [] => .error "Unexpected EOD in RunLengthDecode"
      | b :: rest2 =>
        Except.map (fun tail => List.replicate (257 - l) b ++ tail)
          (runLengthDecode rest2)
termination_by data.length
decreasing_by
  · simp only [List.length_cons, List.length_drop]
    omega
  · simp only [List.length_cons]
    omega

/-- Modelled from the spec: a RunLength producer using literal runs of
at most 128 bytes. -/
def rlChunks (x : List Nat) : List Nat :=
  if x = [] then []
  else (min 128 x.length - 1) :: (x.take 128 ++ rlChunks (x.drop 128))
termination_by x.length
decreasing_by
  simp only [List.length_drop]
  have : x.length ≠ 0 := fun h0 => by
    simp [List.length_eq_zero.mp h0] at *
  omega

/-- Modelled from the spec: RunLength encoding (literal runs followed
by the 128 end-of-data sentinel). -/
def runLengthEncode (x : List Nat) : List Nat := rlChunks x ++ [128]

/-- Hexadecimal digit value of an ASCII byte. -/
def hexDigitVal (c : Nat) : Option Nat :=
  if 48 ≤ c ∧ c ≤ 57 then some (c - 48)
  else if 65 ≤ c ∧ c ≤ 70 then some (c - 55)
  else if 97 ≤ c ∧ c ≤ 102 then some (c - 87)
  else none

/-- Upper-case hexadecimal digit byte. -/
def hexDigitChar (d : Nat) : Nat := if d < 10 then 48 + d else 55 + d

/-- Modelled from the spec: ASCIIHex decoding loop; `pend` holds a
high nibble waiting for its partner.  Whitespace is skipped, `>` (62)
terminates (an odd nibble count is padded with a zero nibble), missing
terminator and non-hex bytes are errors. -/
def asciiHexGo : List Nat → Option Nat → Except String (List Nat)
  | [], _ => .error "Unexpected EOD in ASCIIHexDecode"
  | c :: rest, pend =>
    if c = 62 then
      .ok (match pend with | none => [] | some hi => [16 * hi])
    else if isWsByte c then asciiHexGo rest pend
    else
      match hexDigitVal c with
      | none => .error "Non-hexadecimal byte in ASCIIHexDecode"
      | some d =>
        match pend with
        | none => asciiHexGo rest (some d)
        | some hi =>
          Except.map (fun tail => (16 * hi + d) :: tail) (asciiHexGo rest none)

/-- Modelled from the spec: ASCIIHex decoding. -/
def asciiHexDecode (data : List Nat) : Except String (List Nat) :=
  asciiHexGo data none

/-- Modelled from the spec: ASCIIHex encoding — two hex digits per
byte, then the `>` terminator. -/
def asciiHexEncode (x : List Nat) : List Nat :=
  x.flatMap (fun b => [hexDigitChar (b / 16), hexDigitChar (b % 16)]) ++ [62]

/-- Base-85 value of a digit group. -/
def a85Val (digits : List Nat) : Nat := beVal 85 digits

/-- Modelled from the spec: the `~>` terminator of ASCII85 — the
partial group is padded by `u` (84) and truncated; a group value above
2^32 − 1, a lone final digit or a `~` not followed by `>` is an
error. -/
def a85Tilde (rest grp : List Nat) : Except String (List Nat) :=
  if rest.headD 0 = 62 ∧ rest ≠ [] then
    if hg : grp = [] then .ok []
    else if grp.length = 1 then .error "corrupt final ASCII85 group"
    else
      if a85Val (grp ++ List.replicate (5 - grp.length) 84) < 4294967296 then
        .ok ((natToBE 4 (a85Val (grp ++ List.replicate (5 - grp.length) 84))).take
          (grp.length - 1))
      else .error "ASCII85 group overflow"
  else .error "misplaced tilde in ASCII85"

/-- Modelled from the spec: ASCII85 decoding loop; `grp` holds the
digit values (0–84) of the current group.  `z` (122) abbreviates four
zero bytes, whitespace is skipped, `~>` terminates via `a85Tilde`, and
a full group of five digits yields four bytes unless its value
overflows 32 bits; a foreign byte is an error. -/
def a85Go : List Nat → List Nat → Except String (List Nat)
  | [], _ => .error "Unexpected EOD in ASCII85Decode"
  | c :: rest, grp =>
    if c = 122 then
      if grp = [] then
        Except.map (fun tail => [0, 0, 0, 0] ++ tail) (a85Go rest [])
      else .error "z inside an ASCII85 group"
    else if isWsByte c then a85Go rest grp
    else if c = 126 then a85Tilde rest grp
    else if 33 ≤ c ∧ c ≤ 117 then
      let grp2 := grp ++ [c - 33]
      if grp2.length = 5 then
        let v := a85Val grp2
        if v < 4294967296 then
          Except.map (fun tail => natToBE 4 v ++ tail) (a85Go rest [])
        else .error "ASCII85 group overflow"
      else a85Go rest grp2
    else .error "foreign byte in ASCII85"

/-- Modelled from the spec: ASCII85 decoding. -/
def a85Decode (data : List Nat) : Except String (List Nat) :=
  a85Go data []

/-- Modelled from the spec: ASCII85 encoding — full 4-byte groups
become five base-85 digit bytes, a final partial group of n bytes is
zero-padded and truncated to n+1 digit bytes, and `~>` terminates. -/
def a85EncodeBody : List Nat → List Nat
  | b0 :: b1 :: b2 :: b3 :: rest =>
    (natToBaseBE 85 5 (beToNat [b0, b1, b2, b3])).map (· + 33)
      ++ a85EncodeBody rest
  | [] => []
  | bs =>
    ((natToBaseBE 85 5 (beToNat (bs ++ List.replicate (4 - bs.length) 0))).take
      (bs.length + 1)).map (· + 33)

/-- Modelled from the spec: ASCII85 encoding. -/
def a85Encode (x : List Nat) : List Nat := a85EncodeBody x ++ [126, 62]

/-!
### LZW

Bits are modelled as base-2 digit lists (most significant bit of each
byte first), so one code is read as the big-endian value of `width`
bits. -/

/-- Byte stream to bit stream, most significant bit first. -/
def bytesToBits (bs : List Nat) : List Nat := bs.flatMap (natToBaseBE 2 8)

/-- Bit stream to byte stream, the final partial byte zero-padded. -/
def bitsToBytes : List Nat → List Nat
  | [] => []
  | b0 :: b1 :: b2 :: b3 :: b4 :: b5 :: b6 :: b7 :: rest =>
    beVal 2 [b0, b1, b2, b3, b4, b5, b6, b7] :: bitsToBytes rest
  | bits => [beVal 2 (bits ++ List.replicate (8 - bits.length) 0)]

/-- The decoder's dictionary: codes 0–255 are the single bytes, 256 and
257 are the clear and stop codes, codes from 258 index the entries
grown during decoding (an unset slot reads as the empty word, as the
source's preinitialised table does). -/
def lzwLookup (extra : List (List Nat)) (code : Nat) : List Nat :=
  if code < 256 then [code]
  else if code < 258 then []
  else extra.getD (code - 258) []

/-- Modelled from the spec: the LZW decoding loop over the bit stream.
`pW` is the previous code (256 right after a dictionary reset), `extra`
the grown dictionary entries, `width` the current code width.  Code 256
resets the dictionary and the width to 9, code 257 stops, a known code
is emitted and extends the dictionary by previous-plus-first-byte, an
unknown code is the previous entry plus its own first byte; the width
grows at 2^width − 1 entries (early change) up to 12.  Running out of
bits before the stop code is the error the source documents
(`PdfReadError`). -/
def lzwLoop (bits : List Nat) (pW : Nat) (extra : List (List Nat))
    (width : Nat) : Except String (List Nat) :=
  if h : bits.length < width ∨ width = 0 then
    .error "Missed the stop code in LZWDecode!"
  else
    let cW := beVal 2 (bits.take width)
    let rest := bits.drop width
    if cW = 257 then .ok []
    else if cW = 256 then lzwLoop rest 256 [] 9
    else if pW = 256 then
      Except.map (fun tail => lzwLookup extra cW ++ tail)
        (lzwLoop rest cW extra width)
    else
      let pstr := lzwLookup extra pW
      let known := cW < 258 + extra.length
      let entry :=
        if known then lzwLookup extra cW else pstr ++ [pstr.getD 0 0]
      let p :=
        if known then pstr ++ [(lzwLookup extra cW).getD 0 0]
        else pstr ++ [pstr.getD 0 0]
      let extra2 := extra ++ [p]
      let width2 :=
        if 2 ^ width - 1 ≤ 258 + extra2.length ∧ width < 12 then width + 1
        else width
      Except.map (fun tail => entry ++ tail) (lzwLoop rest cW extra2 width2)
termination_by bits.length
decreasing_by
  · simp only [List.length_drop]
    omega
  · simp only [List.length_drop]
    omega
  · simp only [List.length_drop]
    omega

/-- Modelled from the spec: LZW decoding of a byte stream. -/
def lzwDecode (data : List Nat) : Except String (List Nat) :=
  lzwLoop (bytesToBits data) 256 [] 9

/-- Modelled from the spec: a conforming LZW code stream for `x` — a
clear code before every literal code (so the width stays 9), without
the final stop code. -/
def lzwEncodeBodyBits (x : List Nat) : List Nat :=
  x.flatMap (fun b => natToBaseBE 2 9 256 ++ natToBaseBE 2 9 b)

/-- Modelled from the spec: LZW encoding (clear-code-per-symbol
producer, terminated by the stop code 257, packed into bytes). -/
def lzwEncode (x : List Nat) : List Nat :=
  bitsToBytes (lzwEncodeBodyBits x ++ natToBaseBE 2 9 257)

/-- Modelled from the spec: an LZW code stream that ends without the
stop code. -/
def lzwEncodeNoStop (x : List Nat) : List Nat :=
  bitsToBytes (lzwEncodeBodyBits x)

/-!
### Flate (zlib framing over stored DEFLATE blocks) -/

/-- The zlib Adler-32 checksum. -/
def adler32 (data : List Nat) : Nat :=
  let s := data.foldl
    (fun (ab : Nat × Nat) b => ((ab.1 + b) % 65521, (ab.2 + ab.1 + b) % 65521))
    (1, 0)
  s.2 * 65536 + s.1

/-- Modelled from the spec: the stored (type-0) DEFLATE blocks zlib
emits at compression level 0 — chunks of at most 65535 bytes, each
prefixed by the block header byte (BFINAL in bit 0, BTYPE 0) and the
little-endian LEN and its complement NLEN. -/
def storedBlocks (data : List Nat) : List Nat :=
  if h : data.length ≤ 65535 then
    1 :: (natToLE 2 data.length ++ natToLE 2 (65535 - data.length) ++ data)
  else
    0 :: (natToLE 2 65535 ++ natToLE 2 0 ++ data.take 65535
      ++ storedBlocks (data.drop 65535))
termination_by data.length
decreasing_by
  simp only [List.length_drop]
  omega

/-- Modelled from the spec: `FlateDecode.encode` via zlib at
compression level 0 — the 0x78 0x01 zlib header, stored blocks, and the
big-endian Adler-32 trailer. -/
def flateEncode (data : List Nat) : List Nat :=
  120 :: 1 :: (storedBlocks data ++ natToBE 4 (adler32 data))

/-- Modelled from the spec: DEFLATE inflation restricted to stored
blocks (the only kind the level-0 encoder emits); Huffman block types
are outside the model.  Returns the output and the unread remainder
after the final block. -/
def inflateStored (data : List Nat) : Except String (List Nat × List Nat) :=
  match data with
  | h :: l0 :: l1 :: n0 :: n1 :: rest2 =>
    if h / 2 % 4 ≠ 0 then .error "unsupported block type in model"
    else
      let len := l0 + 256 * l1
      let nlen := n0 + 256 * n1
      if len + nlen ≠ 65535 then .error "stored block length check failed"
      else if rest2.length < len then .error "truncated stored block"
      else if h % 2 = 1 then .ok (rest2.take len, rest2.drop len)
      else
        Except.map (fun pr => (rest2.take len ++ pr.1, pr.2))
          (inflateStored (rest2.drop len))
  | _ => .error "truncated stored block"
termination_by data.length
decreasing_by
  simp only [List.length_cons, List.length_drop]
  omega

/-- Modelled from the spec: `FlateDecode.decode` (no predictor
parameters) — check the zlib header, inflate, and verify the Adler-32
trailer, which must be exactly the last four bytes. -/
def flateDecode (data : List Nat) : Except String (List Nat) :=
  match data with
  | cmf :: flg :: rest =>
    if (cmf * 256 + flg) % 31 ≠ 0 then .error "bad zlib header"
    else if cmf % 16 ≠ 8 then .error "unsupported compression method"
    else
      match inflateStored rest with
      | .ok (out, rem) =>
        if rem.length = 4 then
          if beToNat rem = adler32 out then .ok out
          else .error "Adler-32 mismatch"
        else .error "bad zlib trailer"
      | .error e => .error e
  | _ => .error "zlib data too short"

/-!
### Encryption: MD5, RC4 and the revision 2–4 standard security handler

The source delegates MD5 to Python's `hashlib` and RC4 to the local
fallback provider; MD5 is implemented here per RFC 1321 (all words are
`Nat` reduced modulo 2^32), and the RC4 key schedule is translated from
the implemented `CryptRC4.__init__`. -/

/-- 32-bit rotate left (valid for `x < 2^32`, `n ≤ 32`). -/
def rotl32 (x n : Nat) : Nat := (x * 2 ^ n + x / 2 ^ (32 - n)) % 4294967296

/-- The MD5 sine-derived round constants (RFC 1321). -/
def md5K : List Nat :=
  [3614090360, 3905402710, 606105819, 3250441966,
   4118548399, 1200080426, 2821735955, 4249261313,
   1770035416, 2336552879, 4294925233, 2304563134,
   1804603682, 4254626195, 2792965006, 1236535329,
   4129170786, 3225465664, 643717713, 3921069994,
   3593408605, 38016083, 3634488961, 3889429448,
   568446438, 3275163606, 4107603335, 1163531501,
   2850285829, 4243563512, 1735328473, 2368359562,
   4294588738, 2272392833, 1839030562, 4259657740,
   2763975236, 1272893353, 4139469664, 3200236656,
   681279174, 3936430074, 3572445317, 76029189,
   3654602809, 3873151461, 530742520, 3299628645,
   4096336452, 1126891415, 2878612391, 4237533241,
   1700485571, 2399980690, 4293915773, 2240044497,
   1873313359, 4264355552, 2734768916, 1309151649,
   4149444226, 3174756917, 718787259, 3951481745]

/-- The MD5 per-round shift amounts. -/
def md5S : List Nat :=
  [7, 12, 17, 22, 7, 12, 17, 22, 7, 12, 17, 22, 7, 12, 17, 22,
   5, 9, 14, 20, 5, 9, 14, 20, 5, 9, 14, 20, 5, 9, 14, 20,
   4, 11, 16, 23, 4, 11, 16, 23, 4, 11, 16, 23, 4, 11, 16, 23,
   6, 10, 15, 21, 6, 10, 15, 21, 6, 10, 15, 21, 6, 10, 15, 21]

/-- The MD5 round functions F, G, H, I (complement written as
subtraction from 2^32 − 1, valid on words below 2^32). -/
def md5F (r b c d : Nat) : Nat :=
  if r < 16 then (b &&& c) ||| ((4294967295 - b) &&& d)
  else if r < 32 then (d &&& b) ||| ((4294967295 - d) &&& c)
  else if r < 48 then b ^^^ c ^^^ d
  else c ^^^ (b ||| (4294967295 - d))

/-- The MD5 message-word index for round `r`. -/
def md5G (r : Nat) : Nat :=
  if r < 16 then r
  else if r < 32 then (5 * r + 1) % 16
  else if r < 48 then (3 * r + 5) % 16
  else (7 * r) % 16

/-- One MD5 round on the state `(a, b, c, d)`. -/
def md5Step (M : List Nat) (st : Nat × Nat × Nat × Nat) (r : Nat) :
    Nat × Nat × Nat × Nat :=
  let (a, b, c, d) := st
  let tmp := (a + md5F r b c d + md5K.getD r 0 + M.getD (md5G r) 0) % 4294967296
  (d, (b + rotl32 tmp (md5S.getD r 0)) % 4294967296, b, c)

/-- One 64-byte MD5 chunk: 16 little-endian words, 64 rounds, and the
feed-forward addition. -/
def md5Chunk (st : Nat × Nat × Nat × Nat) (chunk : List Nat) :
    Nat × Nat × Nat × Nat :=
  let M := (List.range 16).map (fun i => leToNat ((chunk.drop (4 * i)).take 4))
  let (a, b, c, d) := (List.range 64).foldl (md5Step M) st
  ((st.1 + a) % 4294967296, (st.2.1 + b) % 4294967296,
   (st.2.2.1 + c) % 4294967296, (st.2.2.2 + d) % 4294967296)

/-- Fold the MD5 compression over all 64-byte chunks. -/
def md5Chunks : Nat × Nat × Nat × Nat → List Nat → Nat × Nat × Nat × Nat
  | st, [] => st
  | st, b :: rest =>
    md5Chunks (md5Chunk st ((b :: rest).take 64)) ((b :: rest).drop 64)
termination_by _ data => data.length
decreasing_by
  simp only [List.length_drop, List.length_cons]
  omega

/-- MD5 padding: a 0x80 byte, zeros to 56 mod 64, and the 64-bit
little-endian bit length. -/
def md5Pad (msg : List Nat) : List Nat :=
  msg ++ [128] ++ List.replicate ((119 - msg.length % 64) % 64) 0
    ++ natToLE 8 (msg.length * 8)

/-- The MD5 digest (RFC 1321) of a byte string, as 16 bytes; the
source obtains it from `hashlib.md5`. -/
def md5 (msg : List Nat) : List Nat :=
  let (a, b, c, d) :=
    md5Chunks (1732584193, 4023233417, 2562383102, 271733878) (md5Pad msg)
  natToLE 4 a ++ natToLE 4 b ++ natToLE 4 c ++ natToLE 4 d

/-- The RC4 key schedule, translated from the implemented
`CryptRC4.__init__` in `_crypt_providers/_fallback.py`: `s` starts as
`range(256)` and each step swaps `s[i]` with `s[j]` for
`j = (j + s[i] + key[i % len(key)]) % 256`. -/
def rc4Ksa (key : List Nat) : List Nat :=
  ((List.range 256).foldl
    (fun (sj : List Nat × Nat) i =>
      let s := sj.1
      let j := (sj.2 + s.getD i 0 + key.getD (i % key.length) 0) % 256
      ((s.set i (s.getD j 0)).set j (s.getD i 0), j))
    (List.range 256, 0)).1

/-- Modelled from the spec: the RC4 keystream generator (the
`CryptRC4.encrypt`/`decrypt` bodies are absent from src). -/
def rc4Prga : List Nat → Nat → Nat → Nat → List Nat
  | _, _, _, 0 => []
  | s, i, j, n + 1 =>
    let i2 := (i + 1) % 256
    let j2 := (j + s.getD i2 0) % 256
    let s2 := (s.set i2 (s.getD j2 0)).set j2 (s.getD i2 0)
    s2.getD ((s2.getD i2 0 + s2.getD j2 0) % 256) 0 :: rc4Prga s2 i2 j2 n

/-- Modelled from the spec: RC4 encryption/decryption — xor the data
with the keystream. -/
def rc4 (key data : List Nat) : List Nat :=
  List.zipWith Nat.xor data (rc4Prga (rc4Ksa key) 0 0 data.length)

/-- The fixed 32-byte password padding string of Algorithm 2. -/
def PASSWORD_PAD : List Nat :=
  [40, 191, 78, 94, 78, 117, 138, 65, 100, 0, 78, 86, 255, 250, 1, 8,
   46, 46, 0, 182, 208, 104, 62, 128, 47, 12, 169, 254, 100, 83, 105, 122]

/-- Step (a) of Algorithm 2: pad or truncate a password to exactly 32
bytes with the fixed padding string. -/
def padPassword (pw : List Nat) : List Nat := (pw ++ PASSWORD_PAD).take 32

/-- Iterated full-digest MD5 (step c of Algorithm 3). -/
def md5Times : Nat → List Nat → List Nat
  | 0, d => d
  | k + 1, d => md5Times k (md5 d)

/-- Iterated MD5 of the first `n` bytes of the previous digest
(step h of Algorithm 2). -/
def md5TruncTimes (n : Nat) : Nat → List Nat → List Nat
  | 0, d => d
  | k + 1, d => md5TruncTimes n k (md5 (d.take n))

/-- Modelled from the spec: `AlgV4.compute_key` (body absent from src),
following its docstring's steps a)–i): pad the password, hash the
accumulated message of steps b)–f) (O entry, P as 32-bit little-endian,
first ID entry, and 0xFFFFFFFF when metadata is unencrypted at
revision ≥ 4), then for revision ≥ 3 re-hash the first n bytes fifty
times, and take the first n bytes, n being 5 at revision 2 and
Length/8 otherwise. -/
def computeKey (password : List Nat) (rev keySize : Nat) (oEntry : List Nat)
    (P : Nat) (id1Entry : List Nat) (metadataEncrypted : Bool) : List Nat :=
  let a := padPassword password
  let b := a ++ oEntry
  let c := b ++ natToLE 4 P
  let e := c ++ id1Entry
  let f := if 4 ≤ rev ∧ metadataEncrypted = false then e ++ [255, 255, 255, 255]
    else e
  let g := md5 f
  let n := if rev = 2 then 5 else keySize / 8
  let h := if 3 ≤ rev then md5TruncTimes n 50 g else g
  h.take n

/-- The claim's wording of the revision 2–4 key derivation: one MD5
over the concatenation (with the conditional 0xFFFFFFFF suffix), the
fifty truncated re-hashes for revision ≥ 3, and the first N bytes. -/
def computeKeySpec (password : List Nat) (rev keySize : Nat) (oEntry : List Nat)
    (P : Nat) (id1Entry : List Nat) (metadataEncrypted : Bool) : List Nat :=
  let n := if rev = 2 then 5 else keySize / 8
  let msg := padPassword password ++ oEntry ++ natToLE 4 P ++ id1Entry
    ++ (if metadataEncrypted = false ∧ 4 ≤ rev then [255, 255, 255, 255] else [])
  let digest := md5 msg
  (if 3 ≤ rev then md5TruncTimes n 50 digest else digest).take n

/-- A key re-keyed by xoring every byte with the round counter
(steps g of Algorithm 3 and b of Algorithm 7). -/
def xorKey (key : List Nat) (i : Nat) : List Nat := key.map (fun b => b ^^^ i)

/-- A sequence of re-keyed RC4 applications, one per counter in `is`. -/
def rc4Rounds (key : List Nat) (is : List Nat) (data : List Nat) : List Nat :=
  is.foldl (fun acc i => rc4 (xorKey key i) acc) data

/-- Modelled from the spec: `AlgV4.compute_O_value_key` (body absent
from src) — steps a)–d) of Algorithm 3: pad the owner password, MD5 it,
re-hash the full digest fifty times for revision ≥ 3, and take the
first n bytes. -/
def computeOValueKey (ownerPassword : List Nat) (rev keySize : Nat) : List Nat :=
  let a := padPassword ownerPassword
  let d0 := md5 a
  let d := if 3 ≤ rev then md5Times 50 d0 else d0
  let n := if rev = 2 then 5 else keySize / 8
  d.take n

/-- Modelled from the spec: `AlgV4.compute_O_value` (body absent from
src) — steps e)–h) of Algorithm 3: RC4-encrypt the padded user
password, with nineteen further re-keyed rounds (counter 1–19) for
revision ≥ 3. -/
def computeOValue (rc4Key userPassword : List Nat) (rev : Nat) : List Nat :=
  let e := padPassword userPassword
  let f := rc4 rc4Key e
  if 3 ≤ rev then rc4Rounds rc4Key ((List.range 19).map (fun i => i + 1)) f
  else f

/-- Modelled from the spec: `AlgV4.compute_U_value` (body absent from
src) — revision 2 RC4-encrypts the padding string with the file key;
revision ≥ 3 applies the nineteen re-keyed rounds on top (only the
first 16 bytes are compared). -/
def computeUValue (key : List Nat) (rev : Nat) : List Nat :=
  if rev = 2 then rc4 key PASSWORD_PAD
  else rc4Rounds key ((List.range 19).map (fun i => i + 1)) (rc4 key PASSWORD_PAD)

/-- Modelled from the spec: `AlgV4.verify_user_password` (body absent
from src) — Algorithm 6: recompute the U value from the candidate
password's key and compare against the stored U entry (first 16 bytes
only at revision ≥ 3); the derived key on success, empty bytes on
failure, as the source's truthiness convention. -/
def verifyUserPasswordV4 (userPassword : List Nat) (rev keySize : Nat)
    (oEntry uEntry : List Nat) (P : Nat) (id1Entry : List Nat)
    (metadataEncrypted : Bool) : List Nat :=
  let key := computeKey userPassword rev keySize oEntry P id1Entry
    metadataEncrypted
  let u := computeUValue key rev
  let ok := if rev = 2 then u == uEntry else u.take 16 == uEntry.take 16
  if ok then key else []

/-- Modelled from the spec: `AlgV4.verify_owner_password` (body absent
from src) — Algorithm 7: derive the Algorithm 3 key from the owner
password, reverse the re-keyed RC4 rounds over the O entry (twenty
rounds, counters 19 down to 0, at revision ≥ 3; one round at
revision 2) to recover the candidate user password, and authenticate it
with Algorithm 6. -/
def verifyOwnerPasswordV4 (ownerPassword : List Nat) (rev keySize : Nat)
    (oEntry uEntry : List Nat) (P : Nat) (id1Entry : List Nat)
    (metadataEncrypted : Bool) : List Nat :=
  let rc4Key := computeOValueKey ownerPassword rev keySize
  let userCandidate :=
    if 3 ≤ rev then rc4Rounds rc4Key (List.range 20).reverse oEntry
    else rc4 rc4Key oEntry
  verifyUserPasswordV4 userCandidate rev keySize oEntry uEntry P id1Entry
    metadataEncrypted

/-- The typed password-check result of `PdfReader.decrypt`. -/
inductive PasswordType where
  | notDecrypted
  | userPassword
  | ownerPassword
deriving DecidableEq, Repr

/-- The revision 2–4 encryption parameters a reader holds: the stored
O and U entries, the permission flags, the first ID entry and the
metadata flag. -/
structure DocV4 where
  rev : Nat
  keySize : Nat
  oEntry : List Nat
  uEntry : List Nat
  P : Nat
  id1 : List Nat
  metadataEncrypted : Bool

/-- Modelled from the spec: `Encryption.verify` (body absent from
src) — try the user password check, then the owner password check,
and report the typed result; no failure path raises. -/
def encryptionVerify (doc : DocV4) (password : List Nat) : PasswordType :=
  if verifyUserPasswordV4 password doc.rev doc.keySize doc.oEntry doc.uEntry
      doc.P doc.id1 doc.metadataEncrypted ≠ [] then
    PasswordType.userPassword
  else if verifyOwnerPasswordV4 password doc.rev doc.keySize doc.oEntry
      doc.uEntry doc.P doc.id1 doc.metadataEncrypted ≠ [] then
    PasswordType.ownerPassword
  else PasswordType.notDecrypted

/-- Modelled from the spec: `PdfReader.decrypt` (body absent from
src) — delegate the password to the encryption context's verify and
return its typed result. -/
def readerDecrypt (doc : DocV4) (password : List Nat) : PasswordType :=
  encryptionVerify doc password

/-- Modelled from the spec: a revision 3, 128-bit document as the
writer constructs it — O from Algorithm 3, the file key from
Algorithm 2, and U from Algorithm 5. -/
def mkDocV4 (userPassword ownerPassword : List Nat) (P : Nat)
    (id1 : List Nat) (metadataEncrypted : Bool) : DocV4 :=
  ⟨3, 128,
   computeOValue (computeOValueKey ownerPassword 3 128) userPassword 3,
   computeUValue (computeKey userPassword 3 128
     (computeOValue (computeOValueKey ownerPassword 3 128) userPassword 3)
     P id1 metadataEncrypted) 3,
   P, id1, metadataEncrypted⟩

/-- Modelled from the spec: `AlgV5.verify_perms` (body absent from
src) — AES-256-ECB-decrypt the 16-byte Perms string (the cipher is a
parameter, as the source takes it from the crypt provider), check
bytes 9–11 are `adb` and bytes 0–3 little-endian equal P. -/
def verifyPerms (aesEcbDecrypt : List Nat → List Nat → List Nat)
    (key perms : List Nat) (p : Nat) : Bool :=
  let blk := aesEcbDecrypt key perms
  (((blk.drop 9).take 3 == [97, 100, 98]) && (leToNat (blk.take 4) == p))

/-- Modelled from the spec: `AlgV5.compute_Perms_value` (body absent
from src) — Algorithm 3.10: P extended to 64 bits little-endian with
the upper half all ones, the metadata flag byte `T`/`F`, `adb`, four
random bytes, AES-256-ECB-encrypted with the file key. -/
def computePermsValue (aesEcbEncrypt : List Nat → List Nat → List Nat)
    (key : List Nat) (p : Nat) (metadataEncrypted : Bool)
    (rand4 : List Nat) : List Nat :=
  aesEcbEncrypt key
    (natToLE 4 p ++ [255, 255, 255, 255]
      ++ [if metadataEncrypted then 84 else 70] ++ [97, 100, 98] ++ rand4)

theorem natToLE_length (w n : Nat) : (natToLE w n).length = w := by
  induction w generalizing n with
  | zero => rfl
  | succ w ih => simp [natToLE, ih]

theorem leToNat_natToLE (w n : Nat) : leToNat (natToLE w n) = n % 256 ^ w := by
  induction w generalizing n with
  | zero => simp [natToLE, leToNat, Nat.mod_one]
  | succ w ih =>
    simp only [natToLE, leToNat, ih]
    rw [pow_succ', Nat.mod_mul]

theorem natToBaseBE_length (b w n : Nat) : (natToBaseBE b w n).length = w := by
  induction w generalizing n with
  | zero => rfl
  | succ w ih => simp [natToBaseBE, ih]

theorem beVal_foldl (b : Nat) (l : List Nat) (a : Nat) :
    l.foldl (fun x d => b * x + d) a = a * b ^ l.length + beVal b l := by
  induction l generalizing a with
  | nil => simp [beVal]
  | cons d ds ih =>
    simp only [List.foldl_cons, List.length_cons]
    rw [ih (b * a + d)]
    have hd : beVal b (d :: ds) = d * b ^ ds.length + beVal b ds := by
      simp only [beVal, List.foldl_cons]
      rw [show b * 0 + d = d by omega]
      rw [ih d]
      simp [beVal]
    rw [hd]
    ring

theorem beVal_cons (b d : Nat) (ds : List Nat) :
    beVal b (d :: ds) = d * b ^ ds.length + beVal b ds := by
  simp only [beVal, List.foldl_cons]
  rw [show b * 0 + d = d by omega]
  rw [beVal_foldl]
  simp [beVal]

theorem beVal_append (b : Nat) (l₁ l₂ : List Nat) :
    beVal b (l₁ ++ l₂) = beVal b l₁ * b ^ l₂.length + beVal b l₂ := by
  simp only [beVal, List.foldl_append]
  rw [beVal_foldl]
  rfl

theorem beVal_lt (b : Nat) (l : List Nat) (hb : 1 ≤ b)
    (h : ∀ d ∈ l, d < b) : beVal b l < b ^ l.length := by
  induction l with
  | nil => simp [beVal]
  | cons d ds ih =>
    rw [beVal_cons]
    have hd := h d (List.mem_cons_self d ds)
    have hds := ih (fun d2 hd2 => h d2 (List.mem_cons_of_mem d hd2))
    have hpow : (0 : Nat) < b ^ ds.length := Nat.pos_pow_of_pos _ (by omega)
    calc d * b ^ ds.length + beVal b ds
        < d * b ^ ds.length + b ^ ds.length := by omega
      _ = (d + 1) * b ^ ds.length := by ring
      _ ≤ b * b ^ ds.length := Nat.mul_le_mul_right _ (by omega)
      _ = b ^ (ds.length + 1) := by ring

theorem beVal_natToBaseBE (b w n : Nat) :
    beVal b (natToBaseBE b w n) = n % b ^ w := by
  induction w generalizing n with
  | zero => simp [natToBaseBE, beVal, Nat.mod_one]
  | succ w ih =>
    simp only [natToBaseBE]
    rw [beVal_cons, natToBaseBE_length, ih,
      Nat.mod_mod_of_dvd n (dvd_refl (b ^ w)), pow_succ, Nat.mod_mul]
    ring

theorem natToBaseBE_digit_lt (b w n : Nat) (hb : 0 < b) :
    ∀ d ∈ natToBaseBE b w n, d < b := by
  induction w generalizing n with
  | zero => intro d hd; cases hd
  | succ w ih =>
    intro d hd
    simp only [natToBaseBE] at hd
    rcases List.mem_cons.mp hd with rfl | hd2
    · exact Nat.mod_lt _ hb
    · exact ih (n % b ^ w) d hd2

theorem natToBaseBE_beVal (b : Nat) (l : List Nat) (h : ∀ d ∈ l, d < b) :
    natToBaseBE b l.length (beVal b l) = l := by
  induction l with
  | nil => rfl
  | cons d ds ih =>
    have hb : 1 ≤ b := by
      have := h d (List.mem_cons_self d ds)
      omega
    have hlt : beVal b ds < b ^ ds.length :=
      beVal_lt b ds hb (fun d2 hd2 => h d2 (List.mem_cons_of_mem d hd2))
    simp only [List.length_cons, natToBaseBE, beVal_cons]
    have hdiv : (d * b ^ ds.length + beVal b ds) / b ^ ds.length = d := by
      rw [Nat.add_comm, Nat.mul_comm d,
        Nat.add_mul_div_left _ _ (Nat.pos_pow_of_pos _ hb),
        Nat.div_eq_of_lt hlt]
      omega
    have hmod : (d * b ^ ds.length + beVal b ds) % b ^ ds.length = beVal b ds := by
      rw [Nat.mul_comm, Nat.mul_add_mod, Nat.mod_eq_of_lt hlt]
    rw [hdiv, hmod, Nat.mod_eq_of_lt (h d (List.mem_cons_self d ds)),
      ih (fun d2 hd2 => h d2 (List.mem_cons_of_mem d hd2))]

theorem natToBaseBE_mod (b w n : Nat) :
    natToBaseBE b w (n % b ^ w) = natToBaseBE b w n := by
  induction w generalizing n with
  | zero => rfl
  | succ w ih =>
    simp only [natToBaseBE]
    have hdvd : b ^ w ∣ b ^ (w + 1) := pow_dvd_pow b (by omega)
    have h1 : n % b ^ (w + 1) / b ^ w % b = n / b ^ w % b := by
      rw [pow_succ, Nat.mod_mul_right_div_self,
        Nat.mod_mod_of_dvd _ (dvd_refl b)]
    have h2 : n % b ^ (w + 1) % b ^ w = n % b ^ w := Nat.mod_mod_of_dvd n hdvd
    rw [h1, h2]

theorem natToBaseBE_split (b w1 w2 n : Nat) :
    natToBaseBE b (w1 + w2) n
      = natToBaseBE b w1 (n / b ^ w2) ++ natToBaseBE b w2 (n % b ^ w2) := by
  induction w1 generalizing n with
  | zero =>
    simp only [Nat.zero_add, List.nil_append]
    exact (natToBaseBE_mod b w2 n).symm
  | succ w1 ih =>
    have harr : w1 + 1 + w2 = (w1 + w2) + 1 := by omega
    rw [harr]
    simp only [natToBaseBE]
    have hhead : n / b ^ (w1 + w2) % b = n / b ^ w2 / b ^ w1 % b := by
      rw [Nat.div_div_eq_div_mul, ← pow_add, Nat.add_comm w2 w1]
    have htail1 : n % b ^ (w1 + w2) % b ^ w2 = n % b ^ w2 :=
      Nat.mod_mod_of_dvd n (pow_dvd_pow b (by omega))
    have htail2 : n % b ^ (w1 + w2) / b ^ w2 = n / b ^ w2 % b ^ w1 := by
      rw [show w1 + w2 = w2 + w1 by omega, pow_add, Nat.mod_mul_right_div_self]
    rw [ih (n % b ^ (w1 + w2)), htail1, htail2, hhead]
    rfl

theorem beVal_replicate_zero (b m : Nat) :
    beVal b (List.replicate m 0) = 0 := by
  induction m with
  | zero => rfl
  | succ m ih => rw [List.replicate_succ, beVal_cons, ih]; omega

theorem beVal_replicate_max (b m : Nat) (hb : 1 ≤ b) :
    beVal b (List.replicate m (b - 1)) = b ^ m - 1 := by
  induction m with
  | zero => rfl
  | succ m ih =>
    rw [List.replicate_succ, beVal_cons, ih, List.length_replicate]
    have hpow : 1 ≤ b ^ m := Nat.one_le_pow _ _ (by omega)
    have hmul : (b - 1) * b ^ m = b * b ^ m - b ^ m := by
      rw [Nat.sub_mul]
      omega
    have hcomm : b * b ^ m = b ^ m * b := Nat.mul_comm _ _
    rw [hmul, pow_succ, hcomm]
    have hbb : b ^ m ≤ b ^ m * b := Nat.le_mul_of_pos_right _ (by omega)
    omega

theorem runLengthDecode_eod (tail : List Nat) :
    runLengthDecode (128 :: tail) = .ok [] := by
  rw [runLengthDecode.eq_def]
  simp

theorem runLength_chunks_decode :
    ∀ (m : Nat) (x tail : List Nat), x.length ≤ m →
      runLengthDecode (rlChunks x ++ 128 :: tail) = .ok x := by
  intro m
  induction m with
  | zero =>
    intro x tail hm
    have hx : x = [] := List.length_eq_zero.mp (by omega)
    subst hx
    rw [rlChunks]
    simpa using runLengthDecode_eod tail
  | succ m ih =>
    intro x tail hm
    by_cases hx : x = []
    · subst hx
      rw [rlChunks]
      simpa using runLengthDecode_eod tail
    · have hxlen : 1 ≤ x.length := by
        cases x with
        | nil => exact absurd rfl hx
        | cons a l => simp
      rw [rlChunks, if_neg hx]
      have hk1 : min 128 x.length - 1 + 1 = min 128 x.length := by omega
      have htlen : (x.take 128).length = min 128 x.length := by
        simp [List.length_take]
      rw [List.cons_append, List.append_assoc]
      rw [runLengthDecode.eq_def]
      have hne128 : ¬ (min 128 x.length - 1 = 128) := by omega
      have hlt128 : min 128 x.length - 1 < 128 := by omega
      have hrlen : ¬ ((x.take 128 ++ (rlChunks (x.drop 128) ++ 128 :: tail)).length
          < min 128 x.length - 1 + 1) := by
        simp only [List.length_append, htlen]
        omega
      simp only [hne128, hlt128, hrlen, if_neg, if_pos, if_false, if_true,
        Bool.false_eq_true, not_false_iff]
      rw [hk1, ← htlen, List.take_left, List.drop_left]
      rw [ih (x.drop 128) tail (by simp [List.length_drop]; omega)]
      simp [Except.map, List.take_append_drop]

theorem runLengthDecode_encode (x : List Nat) :
    runLengthDecode (runLengthEncode x) = .ok x :=
  runLength_chunks_decode x.length x [] le_rfl

theorem hexDigitVal_hexDigitChar {d : Nat} (hd : d < 16) :
    hexDigitVal (hexDigitChar d) = some d := by
  unfold hexDigitChar hexDigitVal
  by_cases h : d < 10
  · rw [if_pos h, if_pos (by omega)]
    congr 1
    omega
  · rw [if_neg h, if_neg (by omega), if_pos (by omega)]
    congr 1
    omega

theorem hexDigitChar_ge48 {d : Nat} (hd : d < 16) : 48 ≤ hexDigitChar d := by
  unfold hexDigitChar
  by_cases h : d < 10 <;> simp [h] <;> omega

theorem hexDigitChar_ne_62 {d : Nat} (hd : d < 16) : ¬ hexDigitChar d = 62 := by
  unfold hexDigitChar
  by_cases h : d < 10 <;> simp [h] <;> omega

theorem isWsByte_false_of_ge48 {c : Nat} (hc : 48 ≤ c) : isWsByte c = false := by
  simp only [isWsByte, Bool.or_eq_false_iff, decide_eq_false_iff_not]
  omega

theorem asciiHexGo_encode (x : List Nat) (hx : ∀ b ∈ x, b < 256) :
    asciiHexGo
      (x.flatMap (fun b => [hexDigitChar (b / 16), hexDigitChar (b % 16)]) ++ [62])
      none = .ok x := by
  induction x with
  | nil => simp [asciiHexGo]
  | cons b rest ih =>
    have hb : b < 256 := hx b (List.mem_cons_self b rest)
    have hhi : b / 16 < 16 := by omega
    have hlo : b % 16 < 16 := by omega
    simp only [List.flatMap_cons, List.cons_append, List.append_assoc]
    rw [asciiHexGo.eq_def]
    simp only []
    rw [if_neg (hexDigitChar_ne_62 hhi)]
    rw [isWsByte_false_of_ge48 (hexDigitChar_ge48 hhi)]
    simp only [Bool.false_eq_true, if_false]
    simp only [hexDigitVal_hexDigitChar hhi]
    rw [asciiHexGo.eq_def]
    simp only []
    rw [if_neg (hexDigitChar_ne_62 hlo)]
    rw [isWsByte_false_of_ge48 (hexDigitChar_ge48 hlo)]
    simp only [Bool.false_eq_true, if_false]
    simp only [hexDigitVal_hexDigitChar hlo]
    simp only [List.nil_append]
    rw [ih (fun b2 hb2 => hx b2 (List.mem_cons_of_mem b hb2))]
    simp [Except.map]
    omega

theorem asciiHexDecode_encode (x : List Nat) (hx : ∀ b ∈ x, b < 256) :
    asciiHexDecode (asciiHexEncode x) = .ok x :=
  asciiHexGo_encode x hx

theorem isWsByte_false_of_ge33 {c : Nat} (hc : 33 ≤ c) : isWsByte c = false := by
  simp only [isWsByte, Bool.or_eq_false_iff, decide_eq_false_iff_not]
  omega

theorem a85Go_full_group : ∀ (digits grp R : List Nat),
    (∀ d ∈ digits, d < 85) → grp.length ≤ 4 → grp.length + digits.length = 5 →
    a85Val (grp ++ digits) < 4294967296 →
    a85Go (digits.map (· + 33) ++ R) grp
      = Except.map (fun tail => natToBE 4 (a85Val (grp ++ digits)) ++ tail)
          (a85Go R []) := by
  intro digits
  induction digits with
  | nil =>
    intro grp R _ hgrp hlen _
    exfalso
    simp only [List.length_nil] at hlen
    omega
  | cons d ds ih =>
    intro grp R hd hgrp hlen hv
    have hd85 : d < 85 := hd d (List.mem_cons_self d ds)
    simp only [List.map_cons, List.cons_append]
    rw [a85Go]
    rw [if_neg (show ¬ (d + 33 = 122) by omega)]
    rw [isWsByte_false_of_ge33 (show 33 ≤ d + 33 by omega)]
    simp only [Bool.false_eq_true, if_false]
    rw [if_neg (show ¬ (d + 33 = 126) by omega)]
    rw [if_pos (show 33 ≤ d + 33 ∧ d + 33 ≤ 117 by omega)]
    simp only [show d + 33 - 33 = d from by omega]
    cases hds : ds with
    | nil =>
      have hlen5 : (grp ++ [d]).length = 5 := by
        simp only [List.length_append, List.length_singleton]
        subst hds
        simp at hlen
        omega
      rw [if_pos hlen5]
      subst hds
      rw [if_pos (by simpa using hv)]
      simp
    | cons d2 ds2 =>
      have hlen5 : ¬ ((grp ++ [d]).length = 5) := by
        simp only [List.length_append, List.length_singleton]
        subst hds
        simp at hlen
        omega
      rw [if_neg hlen5]
      have hstep := ih (grp ++ [d]) R
        (fun e he => hd e (List.mem_cons_of_mem d (hds ▸ he)))
        (by simp only [List.length_append, List.length_singleton]
            subst hds; simp at hlen; omega)
        (by simp only [List.length_append, List.length_singleton]
            subst hds; simp at hlen ⊢; omega)
        (by rw [List.append_assoc]; simpa using hv)
      rw [hds] at hstep
      rw [hstep, List.append_assoc]
      rfl

theorem a85Go_growGroup : ∀ (digits grp R : List Nat),
    (∀ d ∈ digits, d < 85) → grp.length + digits.length ≤ 4 →
    a85Go (digits.map (· + 33) ++ R) grp = a85Go R (grp ++ digits) := by
  intro digits
  induction digits with
  | nil =>
    intro grp R _ _
    simp
  | cons d ds ih =>
    intro grp R hd hlen
    have hd85 : d < 85 := hd d (List.mem_cons_self d ds)
    simp only [List.map_cons, List.cons_append]
    rw [a85Go]
    rw [if_neg (show ¬ (d + 33 = 122) by omega)]
    rw [isWsByte_false_of_ge33 (show 33 ≤ d + 33 by omega)]
    simp only [Bool.false_eq_true, if_false]
    rw [if_neg (show ¬ (d + 33 = 126) by omega)]
    rw [if_pos (show 33 ≤ d + 33 ∧ d + 33 ≤ 117 by omega)]
    simp only [show d + 33 - 33 = d from by omega]
    rw [if_neg (show ¬ ((grp ++ [d]).length = 5) by
      simp only [List.length_append, List.length_singleton]
      simp at hlen
      omega)]
    rw [ih (grp ++ [d]) R
      (fun e he => hd e (List.mem_cons_of_mem d he))
      (by simp only [List.length_append, List.length_singleton]
          simp at hlen ⊢; omega)]
    rw [List.append_assoc]
    rfl

theorem a85Tilde_padGroup (bs : List Nat) (hb : ∀ b ∈ bs, b < 256)
    (h1 : 1 ≤ bs.length) (h3 : bs.length ≤ 3) :
    a85Tilde [62]
      ((natToBaseBE 85 5
        (beToNat (bs ++ List.replicate (4 - bs.length) 0))).take (bs.length + 1))
      = .ok bs := by
  have hQpos : 0 < 256 ^ (4 - bs.length) := Nat.pos_pow_of_pos _ (by omega)
  have hPpos : 0 < 85 ^ (4 - bs.length) := Nat.pos_pow_of_pos _ (by omega)
  have hvp : beToNat (bs ++ List.replicate (4 - bs.length) 0)
      = beVal 256 bs * 256 ^ (4 - bs.length) := by
    unfold beToNat
    rw [beVal_append, beVal_replicate_zero, List.length_replicate]
    omega
  have hB : beVal 256 bs < 256 ^ bs.length := beVal_lt 256 bs (by omega) hb
  have hQn : 256 ^ bs.length * 256 ^ (4 - bs.length) = 4294967296 := by
    rw [← pow_add, show bs.length + (4 - bs.length) = 4 from by omega]
    norm_num
  have hvp32 : beVal 256 bs * 256 ^ (4 - bs.length) + 256 ^ (4 - bs.length)
      ≤ 4294967296 := by
    have hstep : (beVal 256 bs + 1) * 256 ^ (4 - bs.length)
        ≤ 256 ^ bs.length * 256 ^ (4 - bs.length) :=
      Nat.mul_le_mul_right _ (by omega)
    rw [Nat.add_mul, Nat.one_mul] at hstep
    omega
  have h855 : 85 ^ (4 - bs.length) * 85 ^ (bs.length + 1) = 85 ^ 5 := by
    rw [← pow_add, show 4 - bs.length + (bs.length + 1) = 5 from by omega]
  set vp := beToNat (bs ++ List.replicate (4 - bs.length) 0) with hvpdef
  have hvplt : vp < 4294967296 := by omega
  have hq : vp / 85 ^ (4 - bs.length) < 85 ^ (bs.length + 1) := by
    apply Nat.div_lt_of_lt_mul
    calc vp < 4294967296 := hvplt
      _ < 85 ^ 5 := by norm_num
      _ = 85 ^ (4 - bs.length) * 85 ^ (bs.length + 1) := h855.symm
  have hsplit5 : natToBaseBE 85 5 vp
      = natToBaseBE 85 (bs.length + 1) (vp / 85 ^ (4 - bs.length))
        ++ natToBaseBE 85 (4 - bs.length) (vp % 85 ^ (4 - bs.length)) := by
    rw [show (5 : Nat) = (bs.length + 1) + (4 - bs.length) from by omega]
    exact natToBaseBE_split 85 (bs.length + 1) (4 - bs.length) vp
  have htake : (natToBaseBE 85 5 vp).take (bs.length + 1)
      = natToBaseBE 85 (bs.length + 1) (vp / 85 ^ (4 - bs.length)) := by
    have h0 := List.take_left
      (natToBaseBE 85 (bs.length + 1) (vp / 85 ^ (4 - bs.length)))
      (natToBaseBE 85 (4 - bs.length) (vp % 85 ^ (4 - bs.length)))
    rw [natToBaseBE_length] at h0
    rw [hsplit5]
    exact h0
  rw [htake]
  have hgrplen : (natToBaseBE 85 (bs.length + 1)
      (vp / 85 ^ (4 - bs.length))).length = bs.length + 1 :=
    natToBaseBE_length _ _ _
  rw [a85Tilde]
  rw [if_pos (by simp)]
  rw [dif_neg (by
    intro hnil
    rw [hnil] at hgrplen
    simp at hgrplen)]
  rw [if_neg (by omega)]
  rw [hgrplen]
  rw [show bs.length + 1 - 1 = bs.length from by omega,
    show 5 - (bs.length + 1) = 4 - bs.length from by omega]
  have hval : a85Val (natToBaseBE 85 (bs.length + 1) (vp / 85 ^ (4 - bs.length))
      ++ List.replicate (4 - bs.length) 84)
      = vp / 85 ^ (4 - bs.length) * 85 ^ (4 - bs.length)
        + (85 ^ (4 - bs.length) - 1) := by
    unfold a85Val
    rw [beVal_append, List.length_replicate, beVal_natToBaseBE,
      Nat.mod_eq_of_lt hq,
      show (84 : Nat) = 85 - 1 from rfl, beVal_replicate_max 85 _ (by omega)]
  rw [hval]
  have hdm : 85 ^ (4 - bs.length) * (vp / 85 ^ (4 - bs.length))
      + vp % 85 ^ (4 - bs.length) = vp := Nat.div_add_mod vp _
  have hcomm : 85 ^ (4 - bs.length) * (vp / 85 ^ (4 - bs.length))
      = vp / 85 ^ (4 - bs.length) * 85 ^ (4 - bs.length) := Nat.mul_comm _ _
  have hs : vp % 85 ^ (4 - bs.length) < 85 ^ (4 - bs.length) :=
    Nat.mod_lt _ hPpos
  have hPQ : 85 ^ (4 - bs.length) ≤ 256 ^ (4 - bs.length) :=
    Nat.pow_le_pow_left (by omega) _
  have hvpBQ : vp = beVal 256 bs * 256 ^ (4 - bs.length) := hvp
  have hv32 : vp / 85 ^ (4 - bs.length) * 85 ^ (4 - bs.length)
      + (85 ^ (4 - bs.length) - 1) < 4294967296 := by omega
  rw [if_pos hv32]
  have hveq : vp / 85 ^ (4 - bs.length) * 85 ^ (4 - bs.length)
      + (85 ^ (4 - bs.length) - 1)
      = (85 ^ (4 - bs.length) - 1 - vp % 85 ^ (4 - bs.length))
        + 256 ^ (4 - bs.length) * beVal 256 bs := by
    have hmulcomm : 256 ^ (4 - bs.length) * beVal 256 bs
        = beVal 256 bs * 256 ^ (4 - bs.length) := Nat.mul_comm _ _
    omega
  have hvdiv : (vp / 85 ^ (4 - bs.length) * 85 ^ (4 - bs.length)
      + (85 ^ (4 - bs.length) - 1)) / 256 ^ (4 - bs.length) = beVal 256 bs := by
    rw [hveq, Nat.add_mul_div_left _ _ hQpos,
      Nat.div_eq_of_lt (by omega)]
    omega
  congr 1
  have h4 : (4 : Nat) = bs.length + (4 - bs.length) := by omega
  have hsplit4 := natToBaseBE_split 256 bs.length (4 - bs.length)
    (vp / 85 ^ (4 - bs.length) * 85 ^ (4 - bs.length) + (85 ^ (4 - bs.length) - 1))
  rw [← h4] at hsplit4
  have h1 := List.take_left (natToBaseBE 256 bs.length (beVal 256 bs))
    (natToBaseBE 256 (4 - bs.length)
      ((vp / 85 ^ (4 - bs.length) * 85 ^ (4 - bs.length)
        + (85 ^ (4 - bs.length) - 1)) % 256 ^ (4 - bs.length)))
  rw [natToBaseBE_length] at h1
  unfold natToBE
  rw [hsplit4, hvdiv, h1, natToBaseBE_beVal 256 bs hb]

theorem a85_partial_case (bs : List Nat) (hb : ∀ b ∈ bs, b < 256)
    (h1 : 1 ≤ bs.length) (h3 : bs.length ≤ 3) :
    a85Go
      (((natToBaseBE 85 5
          (beToNat (bs ++ List.replicate (4 - bs.length) 0))).take
        (bs.length + 1)).map (· + 33) ++ [126, 62]) []
      = .ok bs := by
  have hd : ∀ d ∈ (natToBaseBE 85 5
      (beToNat (bs ++ List.replicate (4 - bs.length) 0))).take (bs.length + 1),
      d < 85 :=
    fun d hdm =>
      natToBaseBE_digit_lt 85 5 _ (by omega) d (List.take_subset _ _ hdm)
  have hlen : ((natToBaseBE 85 5
      (beToNat (bs ++ List.replicate (4 - bs.length) 0))).take
        (bs.length + 1)).length ≤ 4 := by
    rw [List.length_take, natToBaseBE_length]
    omega
  rw [a85Go_growGroup _ [] _ hd (by simpa using hlen)]
  rw [a85Go]
  rw [if_neg (show ¬ ((126 : Nat) = 122) by omega)]
  rw [isWsByte_false_of_ge33 (show (33 : Nat) ≤ 126 by omega)]
  simp only [Bool.false_eq_true, if_false]
  simp only [if_true]
  simp only [List.nil_append]
  exact a85Tilde_padGroup bs hb h1 h3

theorem a85Go_encode_bounded : ∀ (n : Nat) (x : List Nat), x.length ≤ n →
    (∀ b ∈ x, b < 256) →
    a85Go (a85EncodeBody x ++ [126, 62]) [] = Except.ok x := by
  intro n
  induction n with
  | zero =>
    intro x hle _
    have hx0 : x = [] := List.eq_nil_of_length_eq_zero (by omega)
    subst hx0
    simp [a85EncodeBody, a85Go, a85Tilde, isWsByte]
  | succ n ih =>
    intro x hle hx
    rcases x with _ | ⟨b0, _ | ⟨b1, _ | ⟨b2, _ | ⟨b3, rest⟩⟩⟩⟩
    · simp [a85EncodeBody, a85Go, a85Tilde, isWsByte]
    · exact a85_partial_case [b0] hx (by simp) (by simp)
    · exact a85_partial_case [b0, b1] hx (by simp) (by simp)
    · exact a85_partial_case [b0, b1, b2] hx (by simp) (by simp)
    · have hb4 : ∀ b ∈ [b0, b1, b2, b3], b < 256 := by
        intro b hbm
        apply hx
        simp only [List.mem_cons, List.not_mem_nil, or_false] at hbm
        rcases hbm with h | h | h | h <;> simp [h]
      have hv : beToNat [b0, b1, b2, b3] < 4294967296 := by
        have hlt := beVal_lt 256 [b0, b1, b2, b3] (by omega) hb4
        have h4 : ([b0, b1, b2, b3] : List Nat).length = 4 := rfl
        rw [h4] at hlt
        have hp : (256 : Nat) ^ 4 = 4294967296 := by norm_num
        rw [hp] at hlt
        exact hlt
      have hbody : a85EncodeBody (b0 :: b1 :: b2 :: b3 :: rest)
          = (natToBaseBE 85 5 (beToNat [b0, b1, b2, b3])).map (fun d => d + 33)
            ++ a85EncodeBody rest := rfl
      rw [hbody, List.append_assoc]
      have ha : a85Val ([] ++ natToBaseBE 85 5 (beToNat [b0, b1, b2, b3]))
          = beToNat [b0, b1, b2, b3] := by
        rw [List.nil_append]
        unfold a85Val
        rw [beVal_natToBaseBE]
        exact Nat.mod_eq_of_lt (Nat.lt_trans hv (by norm_num))
      rw [a85Go_full_group (natToBaseBE 85 5 (beToNat [b0, b1, b2, b3])) []
        (a85EncodeBody rest ++ [126, 62])
        (natToBaseBE_digit_lt 85 5 _ (by omega))
        (by simp)
        (by simp [natToBaseBE_length])
        (by rw [ha]; exact hv)]
      rw [ih rest (by simp only [List.length_cons] at hle; omega)
        (fun b hbm => hx b (by simp [hbm]))]
      rw [ha]
      have hbe : natToBE 4 (beToNat [b0, b1, b2, b3]) = [b0, b1, b2, b3] := by
        unfold natToBE beToNat
        exact natToBaseBE_beVal 256 [b0, b1, b2, b3] hb4
      simp [Except.map, hbe]

theorem a85Go_encode (x : List Nat) (hx : ∀ b ∈ x, b < 256) :
    a85Go (a85EncodeBody x ++ [126, 62]) [] = Except.ok x :=
  a85Go_encode_bounded x.length x (Nat.le_refl _) hx

theorem a85Decode_encode (x : List Nat) (hx : ∀ b ∈ x, b < 256) :
    a85Decode (a85Encode x) = Except.ok x := by
  unfold a85Decode a85Encode
  exact a85Go_encode x hx

theorem bytesToBits_cons (a : Nat) (l : List Nat) :
    bytesToBits (a :: l) = natToBaseBE 2 8 a ++ bytesToBits l := by
  simp [bytesToBits]

theorem bytesToBits_single (bs : List Nat) (m : Nat) (hm : bs.length + m = 8)
    (hb : ∀ b ∈ bs, b < 2) :
    bytesToBits [beVal 2 (bs ++ List.replicate m 0)] = bs ++ List.replicate m 0 := by
  have hdig : ∀ d ∈ bs ++ List.replicate m 0, d < 2 := by
    intro d hd
    rcases List.mem_append.mp hd with h | h
    · exact hb d h
    · have := List.eq_of_mem_replicate h
      omega
  have h := natToBaseBE_beVal 2 (bs ++ List.replicate m 0) hdig
  have hlen : (bs ++ List.replicate m 0).length = 8 := by
    simp only [List.length_append, List.length_replicate]
    omega
  rw [hlen] at h
  simp only [bytesToBits, List.flatMap_cons, List.flatMap_nil, List.append_nil]
  rw [h]

theorem bytesToBits_bitsToBytes_bounded : ∀ (n : Nat) (bits : List Nat),
    bits.length ≤ n → (∀ b ∈ bits, b < 2) →
    ∃ m, m < 8 ∧ bytesToBits (bitsToBytes bits) = bits ++ List.replicate m 0 := by
  intro n
  induction n with
  | zero =>
    intro bits hle _
    have hx0 : bits = [] := List.eq_nil_of_length_eq_zero (by omega)
    subst hx0
    exact ⟨0, by omega, rfl⟩
  | succ n ih =>
    intro bits hle hb
    rcases bits with _ | ⟨b0, _ | ⟨b1, _ | ⟨b2, _ | ⟨b3, _ | ⟨b4, _ | ⟨b5, _ |
      ⟨b6, _ | ⟨b7, rest⟩⟩⟩⟩⟩⟩⟩⟩
    · exact ⟨0, by omega, rfl⟩
    · exact ⟨7, by omega, bytesToBits_single [b0] 7 (by simp) hb⟩
    · exact ⟨6, by omega, bytesToBits_single [b0, b1] 6 (by simp) hb⟩
    · exact ⟨5, by omega, bytesToBits_single [b0, b1, b2] 5 (by simp) hb⟩
    · exact ⟨4, by omega, bytesToBits_single [b0, b1, b2, b3] 4 (by simp) hb⟩
    · exact ⟨3, by omega, bytesToBits_single [b0, b1, b2, b3, b4] 3 (by simp) hb⟩
    · exact ⟨2, by omega, bytesToBits_single [b0, b1, b2, b3, b4, b5] 2 (by simp) hb⟩
    · exact ⟨1, by omega,
        bytesToBits_single [b0, b1, b2, b3, b4, b5, b6] 1 (by simp) hb⟩
    · obtain ⟨m, hm, heq⟩ := ih rest
        (by simp only [List.length_cons] at hle; omega)
        (fun b hbm => hb b (by simp [hbm]))
      refine ⟨m, hm, ?_⟩
      have hbits : ∀ d ∈ [b0, b1, b2, b3, b4, b5, b6, b7], d < 2 := by
        intro d hd
        apply hb
        simp only [List.mem_cons, List.not_mem_nil, or_false] at hd
        rcases hd with h | h | h | h | h | h | h | h <;> simp [h]
      have hstep : bitsToBytes (b0 :: b1 :: b2 :: b3 :: b4 :: b5 :: b6 :: b7 :: rest)
          = beVal 2 [b0, b1, b2, b3, b4, b5, b6, b7] :: bitsToBytes rest := rfl
      rw [hstep, bytesToBits_cons, heq]
      have h8 := natToBaseBE_beVal 2 [b0, b1, b2, b3, b4, b5, b6, b7] hbits
      have hl8 : ([b0, b1, b2, b3, b4, b5, b6, b7] : List Nat).length = 8 := rfl
      rw [hl8] at h8
      rw [h8]
      simp

theorem bytesToBits_bitsToBytes (bits : List Nat) (hb : ∀ b ∈ bits, b < 2) :
    ∃ m, m < 8 ∧ bytesToBits (bitsToBytes bits) = bits ++ List.replicate m 0 :=
  bytesToBits_bitsToBytes_bounded bits.length bits (Nat.le_refl _) hb

theorem lzwLoop_step_stop (R : List Nat) (pW : Nat) (extra : List (List Nat)) :
    lzwLoop (natToBaseBE 2 9 257 ++ R) pW extra 9 = Except.ok [] := by
  rw [lzwLoop]
  have hlen : (natToBaseBE 2 9 257 ++ R).length = 9 + R.length := by
    simp [natToBaseBE_length]
  rw [dif_neg (by rw [hlen]; omega)]
  have htk : (natToBaseBE 2 9 257 ++ R).take 9 = natToBaseBE 2 9 257 := by
    have h0 := List.take_left (natToBaseBE 2 9 257) R
    rw [natToBaseBE_length] at h0
    exact h0
  rw [htk, beVal_natToBaseBE]
  norm_num

theorem lzwLoop_step_clear (R : List Nat) (pW : Nat) (extra : List (List Nat)) :
    lzwLoop (natToBaseBE 2 9 256 ++ R) pW extra 9 = lzwLoop R 256 [] 9 := by
  rw [lzwLoop]
  have hlen : (natToBaseBE 2 9 256 ++ R).length = 9 + R.length := by
    simp [natToBaseBE_length]
  rw [dif_neg (by rw [hlen]; omega)]
  have htk : (natToBaseBE 2 9 256 ++ R).take 9 = natToBaseBE 2 9 256 := by
    have h0 := List.take_left (natToBaseBE 2 9 256) R
    rw [natToBaseBE_length] at h0
    exact h0
  have hdr : (natToBaseBE 2 9 256 ++ R).drop 9 = R := by
    have h0 := List.drop_left (natToBaseBE 2 9 256) R
    rw [natToBaseBE_length] at h0
    exact h0
  rw [htk, hdr, beVal_natToBaseBE]
  norm_num

theorem lzwLoop_step_lit (b : Nat) (hb : b < 256) (R : List Nat)
    (extra : List (List Nat)) :
    lzwLoop (natToBaseBE 2 9 b ++ R) 256 extra 9
      = Except.map (fun tail => lzwLookup extra b ++ tail)
          (lzwLoop R b extra 9) := by
  rw [lzwLoop]
  have hlen : (natToBaseBE 2 9 b ++ R).length = 9 + R.length := by
    simp [natToBaseBE_length]
  rw [dif_neg (by rw [hlen]; omega)]
  have htk : (natToBaseBE 2 9 b ++ R).take 9 = natToBaseBE 2 9 b := by
    have h0 := List.take_left (natToBaseBE 2 9 b) R
    rw [natToBaseBE_length] at h0
    exact h0
  have hdr : (natToBaseBE 2 9 b ++ R).drop 9 = R := by
    have h0 := List.drop_left (natToBaseBE 2 9 b) R
    rw [natToBaseBE_length] at h0
    exact h0
  have hmod : b % 2 ^ 9 = b := Nat.mod_eq_of_lt (by omega)
  rw [htk, hdr, beVal_natToBaseBE, hmod]
  rw [if_neg (by omega), if_neg (by omega), if_pos rfl]

theorem lzwLoop_stream : ∀ (x : List Nat), (∀ b ∈ x, b < 256) →
    ∀ (pW : Nat) (extra : List (List Nat)) (junk : List Nat),
    lzwLoop (lzwEncodeBodyBits x ++ (natToBaseBE 2 9 257 ++ junk)) pW extra 9
      = Except.ok x := by
  intro x
  induction x with
  | nil =>
    intro _ pW extra junk
    simp only [lzwEncodeBodyBits, List.flatMap_nil, List.nil_append]
    exact lzwLoop_step_stop junk pW extra
  | cons b rest ih =>
    intro hx pW extra junk
    have hb : b < 256 := hx b (List.mem_cons_self b rest)
    have hbody : lzwEncodeBodyBits (b :: rest)
        = (natToBaseBE 2 9 256 ++ natToBaseBE 2 9 b) ++ lzwEncodeBodyBits rest := by
      simp [lzwEncodeBodyBits]
    rw [hbody, List.append_assoc, List.append_assoc]
    rw [lzwLoop_step_clear, lzwLoop_step_lit b hb _ []]
    rw [ih (fun e he => hx e (List.mem_cons_of_mem b he)) b [] junk]
    have hlk : lzwLookup [] b = [b] := by
      simp [lzwLookup, hb]
    simp [Except.map, hlk]

theorem lzwDecode_encode (x : List Nat) (hx : ∀ b ∈ x, b < 256) :
    lzwDecode (lzwEncode x) = Except.ok x := by
  unfold lzwDecode lzwEncode
  have hb2 : ∀ d ∈ lzwEncodeBodyBits x ++ natToBaseBE 2 9 257, d < 2 := by
    intro d hd
    rcases List.mem_append.mp hd with h | h
    · simp only [lzwEncodeBodyBits, List.mem_flatMap] at h
      obtain ⟨b, _, hmem⟩ := h
      rcases List.mem_append.mp hmem with h2 | h2
      · exact natToBaseBE_digit_lt 2 9 256 (by omega) d h2
      · exact natToBaseBE_digit_lt 2 9 b (by omega) d h2
    · exact natToBaseBE_digit_lt 2 9 257 (by omega) d h
  obtain ⟨m, _, heq⟩ :=
    bytesToBits_bitsToBytes (lzwEncodeBodyBits x ++ natToBaseBE 2 9 257) hb2
  rw [heq, List.append_assoc]
  exact lzwLoop_stream x hx 256 [] (List.replicate m 0)

theorem natToLE_two (k : Nat) : natToLE 2 k = [k % 256, k / 256 % 256] := rfl

theorem adler32_fold_lt (l : List Nat) : ∀ (ab : Nat × Nat),
    ab.1 < 65521 → ab.2 < 65521 →
    (l.foldl (fun (ab : Nat × Nat) b =>
      ((ab.1 + b) % 65521, (ab.2 + ab.1 + b) % 65521)) ab).1 < 65521 ∧
    (l.foldl (fun (ab : Nat × Nat) b =>
      ((ab.1 + b) % 65521, (ab.2 + ab.1 + b) % 65521)) ab).2 < 65521 := by
  induction l with
  | nil =>
    intro ab h1 h2
    exact ⟨h1, h2⟩
  | cons b bs ih =>
    intro ab _ _
    simp only [List.foldl_cons]
    exact ih _ (Nat.mod_lt _ (by omega)) (Nat.mod_lt _ (by omega))

theorem adler32_lt (data : List Nat) : adler32 data < 4294967296 := by
  unfold adler32
  obtain ⟨h1, h2⟩ := adler32_fold_lt data (1, 0) (by omega) (by omega)
  simp only []
  omega

theorem inflateStored_final (data suffix : List Nat) (hle : data.length ≤ 65535) :
    inflateStored (storedBlocks data ++ suffix) = Except.ok (data, suffix) := by
  have hsb : storedBlocks data
      = 1 :: (natToLE 2 data.length
          ++ natToLE 2 (65535 - data.length) ++ data) := by
    rw [storedBlocks, dif_pos hle]
  rw [hsb, natToLE_two, natToLE_two]
  simp only [List.cons_append, List.append_assoc, List.nil_append]
  rw [inflateStored]
  rw [if_neg (by norm_num)]
  have hlv : data.length % 256 + 256 * (data.length / 256 % 256)
      = data.length := by omega
  have hnv : (65535 - data.length) % 256
      + 256 * ((65535 - data.length) / 256 % 256) = 65535 - data.length := by
    omega
  rw [hlv, hnv]
  rw [if_neg (show ¬ (data.length + (65535 - data.length) ≠ 65535) by omega)]
  rw [if_neg (show ¬ ((data ++ suffix).length < data.length) by
    simp only [List.length_append]
    omega)]
  rw [if_pos (show (1 : Nat) % 2 = 1 by norm_num)]
  rw [List.take_left, List.drop_left]

theorem inflateStored_big (data suffix : List Nat) (hgt : ¬ data.length ≤ 65535)
    (ih : inflateStored (storedBlocks (data.drop 65535) ++ suffix)
      = Except.ok (data.drop 65535, suffix)) :
    inflateStored (storedBlocks data ++ suffix) = Except.ok (data, suffix) := by
  have hsb : storedBlocks data
      = 0 :: (natToLE 2 65535 ++ natToLE 2 0 ++ data.take 65535
        ++ storedBlocks (data.drop 65535)) := by
    rw [storedBlocks, dif_neg hgt]
  have h55 : natToLE 2 65535 = [255, 255] := rfl
  have h00 : natToLE 2 0 = [0, 0] := rfl
  rw [hsb, h55, h00]
  simp only [List.cons_append, List.append_assoc, List.nil_append]
  rw [inflateStored]
  rw [if_neg (by norm_num)]
  have hlv : (255 : Nat) + 256 * 255 = 65535 := by norm_num
  have hnv : (0 : Nat) + 256 * 0 = 0 := by norm_num
  rw [hlv, hnv]
  rw [if_neg (show ¬ ((65535 : Nat) + 0 ≠ 65535) by omega)]
  have htklen : (data.take 65535).length = 65535 := by
    rw [List.length_take]
    omega
  rw [if_neg (show ¬ ((data.take 65535
      ++ (storedBlocks (data.drop 65535) ++ suffix)).length < 65535) by
    simp only [List.length_append, htklen]
    omega)]
  rw [if_neg (show ¬ ((0 : Nat) % 2 = 1) by norm_num)]
  have htk : (data.take 65535
      ++ (storedBlocks (data.drop 65535) ++ suffix)).take 65535
      = data.take 65535 := by
    have h0 := List.take_left (data.take 65535)
      (storedBlocks (data.drop 65535) ++ suffix)
    rw [htklen] at h0
    exact h0
  have hdr : (data.take 65535
      ++ (storedBlocks (data.drop 65535) ++ suffix)).drop 65535
      = storedBlocks (data.drop 65535) ++ suffix := by
    have h0 := List.drop_left (data.take 65535)
      (storedBlocks (data.drop 65535) ++ suffix)
    rw [htklen] at h0
    exact h0
  rw [htk, hdr, ih]
  simp [Except.map, List.take_append_drop]

theorem inflateStored_storedBlocks_bounded : ∀ (n : Nat) (data suffix : List Nat),
    data.length ≤ 65535 * n →
    inflateStored (storedBlocks data ++ suffix) = Except.ok (data, suffix) := by
  intro n
  induction n with
  | zero =>
    intro data suffix hle
    have h0 : data = [] := List.eq_nil_of_length_eq_zero (by omega)
    subst h0
    exact inflateStored_final [] suffix (by simp)
  | succ n ih =>
    intro data suffix hle
    by_cases hc : data.length ≤ 65535
    · exact inflateStored_final data suffix hc
    · exact inflateStored_big data suffix hc
        (ih (data.drop 65535) suffix (by
          simp only [List.length_drop]
          omega))

theorem inflateStored_storedBlocks (data suffix : List Nat) :
    inflateStored (storedBlocks data ++ suffix) = Except.ok (data, suffix) :=
  inflateStored_storedBlocks_bounded data.length data suffix
    (by
      rcases Nat.eq_zero_or_pos data.length with h | h
      · omega
      · calc data.length = 1 * data.length := (Nat.one_mul _).symm
          _ ≤ 65535 * data.length := Nat.mul_le_mul_right _ (by omega))

theorem flateDecode_encode (data : List Nat) :
    flateDecode (flateEncode data) = Except.ok data := by
  rw [show flateEncode data
    = 120 :: 1 :: (storedBlocks data ++ natToBE 4 (adler32 data)) from rfl]
  rw [flateDecode]
  rw [if_neg (show ¬ ((120 * 256 + 1) % 31 ≠ 0) by norm_num)]
  rw [if_neg (show ¬ ((120 : Nat) % 16 ≠ 8) by norm_num)]
  rw [inflateStored_storedBlocks data (natToBE 4 (adler32 data))]
  show (if (natToBE 4 (adler32 data)).length = 4 then
      if beToNat (natToBE 4 (adler32 data)) = adler32 data then
        Except.ok data
      else Except.error "Adler-32 mismatch"
    else Except.error "bad zlib trailer") = Except.ok data
  rw [if_pos (show (natToBE 4 (adler32 data)).length = 4 from
    natToBaseBE_length 256 4 _)]
  have hbe : beToNat (natToBE 4 (adler32 data)) = adler32 data := by
    unfold beToNat natToBE
    rw [beVal_natToBaseBE]
    exact Nat.mod_eq_of_lt (by
      have := adler32_lt data
      norm_num
      omega)
  rw [if_pos hbe]

theorem lookup_append_pair (l₁ l₂ : XrefSection) (n : Nat) :
    (l₁ ++ l₂).lookup n = optFirst (l₁.lookup n) (l₂.lookup n) := by
  induction l₁ with
  | nil => simp [optFirst]
  | cons e rest ih =>
    by_cases h : n = e.1
    · simp [List.lookup, h, optFirst]
    · have hb : (n == e.1) = false := by simp [h]
      simp [List.lookup, hb, ih]

theorem optFirst_assoc (a b c : Option XrefEntry) :
    optFirst (optFirst a b) c = optFirst a (optFirst b c) := by
  cases a <;> cases b <;> rfl

theorem lookup_cons_pair (e : Nat × XrefEntry) (rest : XrefSection) (n : Nat) :
    (e :: rest).lookup n = if n = e.1 then some e.2 else rest.lookup n := by
  by_cases h : n = e.1
  · simp [List.lookup, h]
  · have hb : (n == e.1) = false := beq_eq_false_iff_ne.mpr h
    simp [List.lookup, hb, h]

theorem lookup_mergeXrefSection (idx sec : XrefSection) (n : Nat) :
    (mergeXrefSection idx sec).lookup n
      = optFirst (idx.lookup n) (sec.lookup n) := by
  induction sec generalizing idx with
  | nil => cases h : idx.lookup n <;> simp [mergeXrefSection, optFirst, h]
  | cons e rest ih =>
    have hfold : mergeXrefSection idx (e :: rest)
        = mergeXrefSection (if (idx.lookup e.1).isSome then idx else idx ++ [e]) rest := by
      by_cases hmem : (idx.lookup e.1).isSome <;>
        simp [mergeXrefSection, List.foldl_cons, hmem]
    rw [hfold]
    by_cases hmem : (idx.lookup e.1).isSome
    · rw [if_pos hmem, ih, lookup_cons_pair]
      by_cases h : n = e.1
      · rcases Option.isSome_iff_exists.mp hmem with ⟨v, hv⟩
        rw [h, hv]
        simp [optFirst]
      · simp [h]
    · rw [if_neg hmem, ih, lookup_append_pair, optFirst_assoc, lookup_cons_pair]
      congr 1
      by_cases h : n = e.1
      · simp [List.lookup, h, optFirst]
      · have hb : (n == e.1) = false := beq_eq_false_iff_ne.mpr h
        simp [List.lookup, hb, h, optFirst]

theorem lookup_buildXrefIndex (chain : List XrefSection) (n : Nat) :
    (buildXrefIndex chain).lookup n = firstSectionLookup chain n := by
  suffices h : ∀ acc : XrefSection,
      (chain.foldl mergeXrefSection acc).lookup n
        = optFirst (acc.lookup n) (firstSectionLookup chain n) by
    have h0 := h []
    simpa [optFirst] using h0
  induction chain with
  | nil =>
    intro acc
    cases h : acc.lookup n <;> simp [firstSectionLookup, optFirst, h]
  | cons s rest ih =>
    intro acc
    simp only [List.foldl_cons, ih, lookup_mergeXrefSection, firstSectionLookup]
    cases hacc : acc.lookup n with
    | none =>
      cases hs : s.lookup n <;> simp [optFirst, hs]
    | some v => simp [optFirst]

/-- Claim C6: walking the `/Prev` chain, the merged index maps every
object number to the entry of the first-visited (most recent) section
that defines it, and merging a further section never overwrites an
entry already present. -/
theorem claim_C6_xref_first_seen_wins (chain : List XrefSection)
    (idx sec : XrefSection) (n : Nat) (h : (idx.lookup n).isSome) :
    (buildXrefIndex chain).lookup n = firstSectionLookup chain n
    ∧ (mergeXrefSection idx sec).lookup n = idx.lookup n := by
  refine ⟨lookup_buildXrefIndex chain n, ?_⟩
  rw [lookup_mergeXrefSection]
  rcases Option.isSome_iff_exists.mp h with ⟨v, hv⟩
  simp [hv, optFirst]

/-- Witness for C6: a two-section chain in which both sections define
object 5; the merged index keeps the entry of the section reached
first. -/
theorem claim_C6_witness :
    (([(5, XrefEntry.offset 100)] : XrefSection).lookup 5).isSome
    ∧ ((buildXrefIndex [[(5, XrefEntry.offset 100)], [(5, XrefEntry.offset 50)]]).lookup 5
          = firstSectionLookup [[(5, XrefEntry.offset 100)], [(5, XrefEntry.offset 50)]] 5
        ∧ (mergeXrefSection [(5, XrefEntry.offset 100)] [(5, XrefEntry.offset 50)]).lookup 5
          = ([(5, XrefEntry.offset 100)] : XrefSection).lookup 5)
    ∧ (buildXrefIndex [[(5, XrefEntry.offset 100)], [(5, XrefEntry.offset 50)]]).lookup 5
        = some (XrefEntry.offset 100) :=
  ⟨by decide,
    claim_C6_xref_first_seen_wins
      [[(5, XrefEntry.offset 100)], [(5, XrefEntry.offset 50)]]
      [(5, XrefEntry.offset 100)] [(5, XrefEntry.offset 50)] 5 (by decide),
    by decide⟩

theorem resolveRef_null_of_closed (table : ObjectTable) (S : List (Nat × Nat))
    (hS : ∀ j ∈ S, ∃ k, k ∈ S ∧ table.lookup j = some (PdfObj.indirectRef k.1 k.2)) :
    ∀ m visiting id,
      ((table.map Prod.fst).filter (fun k => k ∉ visiting)).length ≤ m →
      id ∈ S → resolveRef table visiting id = PdfObj.nullObj := by
  intro m
  induction m with
  | zero =>
    intro visiting id hm hid
    rw [resolveRef.eq_def]
    split
    · rfl
    next hv =>
      exfalso
      rcases hS id hid with ⟨k, _, hlook⟩
      have hmem : id ∈ table.map Prod.fst := mem_keys_of_lookup hlook
      have hpos : id ∈ (table.map Prod.fst).filter (fun k => k ∉ visiting) :=
        List.mem_filter.mpr ⟨hmem, by simpa using hv⟩
      have := List.length_pos_of_mem hpos
      omega
  | succ m ih =>
    intro visiting id hm hid
    rw [resolveRef.eq_def]
    split
    · rfl
    next hv =>
      rcases hS id hid with ⟨k, hk, hlook⟩
      split
      next heq => simp [heq] at hlook
      next n g heq =>
        rw [heq] at hlook
        have hng : (n, g) = k := by
          injection hlook with h1
          injection h1 with h2 h3
          rw [h2, h3]
        have hlt := filter_keys_cons_lt (table.map Prod.fst) visiting id
          (mem_keys_of_lookup heq) (by simpa using hv)
        exact ih (id :: visiting) (n, g) (by omega) (hng ▸ hk)
      next v hcon heq =>
        rw [heq] at hlook
        injection hlook with h1
        exact absurd h1 (fun hcontra => hcon k.1 k.2 hcontra)

/-- Claim C7: an id inside a set of table entries that all refer into
the set (a reference cycle of any length, in particular a direct
self-reference) resolves to the null-object placeholder; resolution
always terminates because `resolveRef` is total by its well-founded
measure. -/
theorem claim_C7_cycle_resolves_to_null (table : ObjectTable)
    (S : List (Nat × Nat)) (id : Nat × Nat) (hid : id ∈ S)
    (hS : ∀ j ∈ S, ∃ k, k ∈ S ∧ table.lookup j = some (PdfObj.indirectRef k.1 k.2)) :
    resolveRef table [] id = PdfObj.nullObj :=
  resolveRef_null_of_closed table S hS
    ((table.map Prod.fst).filter (fun k => k ∉ ([] : List (Nat × Nat)))).length
    [] id (le_refl _) hid

/-- Witness for C7: object (1, 0) whose stored value is a reference to
itself resolves to the null object. -/
theorem claim_C7_witness :
    ((1, 0) ∈ [((1 : Nat), (0 : Nat))])
    ∧ (∀ j ∈ [((1 : Nat), (0 : Nat))], ∃ k, k ∈ [((1 : Nat), (0 : Nat))]
        ∧ ([(((1 : Nat), (0 : Nat)), PdfObj.indirectRef 1 0)] : ObjectTable).lookup j
          = some (PdfObj.indirectRef k.1 k.2))
    ∧ resolveRef [(((1 : Nat), (0 : Nat)), PdfObj.indirectRef 1 0)] [] (1, 0)
        = PdfObj.nullObj :=
  ⟨by decide,
    fun j hj => by
      rw [List.mem_singleton] at hj
      subst hj
      exact ⟨(1, 0), List.mem_singleton.mpr rfl, rfl⟩,
    claim_C7_cycle_resolves_to_null _ [((1 : Nat), (0 : Nat))] (1, 0)
      (by decide)
      (fun j hj => by
        rw [List.mem_singleton] at hj
        subst hj
        exact ⟨(1, 0), List.mem_singleton.mpr rfl, rfl⟩)⟩

theorem resolveRef_isRef_false (table : ObjectTable) :
    ∀ m visiting id,
      ((table.map Prod.fst).filter (fun k => k ∉ visiting)).length ≤ m →
      isRef (resolveRef table visiting id) = false := by
  intro m
  induction m with
  | zero =>
    intro visiting id hm
    rw [resolveRef.eq_def]
    split
    · rfl
    next hv =>
      split
      · rfl
      next n g heq =>
        exfalso
        have hpos : id ∈ (table.map Prod.fst).filter (fun k => k ∉ visiting) :=
          List.mem_filter.mpr ⟨mem_keys_of_lookup heq, by simpa using hv⟩
        have := List.length_pos_of_mem hpos
        omega
      next v hcon heq =>
        cases v with
        | indirectRef n g => exact absurd rfl (hcon n g)
        | nullObj => rfl
        | boolObj b => rfl
        | numObj n => rfl
        | realObj q => rfl
        | nameObj s => rfl
        | stringObj bs => rfl
        | arrayObj items => rfl
        | dictObj entries => rfl
  | succ m ih =>
    intro visiting id hm
    rw [resolveRef.eq_def]
    split
    · rfl
    next hv =>
      split
      · rfl
      next n g heq =>
        have hlt := filter_keys_cons_lt (table.map Prod.fst) visiting id
          (mem_keys_of_lookup heq) (by simpa using hv)
        exact ih (id :: visiting) (n, g) (by omega)
      next v hcon heq =>
        cases v with
        | indirectRef n g => exact absurd rfl (hcon n g)
        | nullObj => rfl
        | boolObj b => rfl
        | numObj n => rfl
        | realObj q => rfl
        | nameObj s => rfl
        | stringObj bs => rfl
        | arrayObj items => rfl
        | dictObj entries => rfl

theorem getObject_isRef_false (table : ObjectTable) (o : PdfObj) :
    isRef (getObject table o) = false := by
  cases o with
  | indirectRef n g =>
    exact resolveRef_isRef_false table _ [] (n, g) (le_refl _)
  | nullObj => rfl
  | boolObj b => rfl
  | numObj n => rfl
  | realObj q => rfl
  | nameObj s => rfl
  | stringObj bs => rfl
  | arrayObj items => rfl
  | dictObj entries => rfl

/-- Claim C10: dictionary subscripting returns `get_object()` of the
stored value: an indirect reference is resolved through the table, any
other object is returned as stored, and the result is never an
unresolved indirect reference (while raw dict access returns the stored
value unresolved). -/
theorem claim_C10_subscript_resolves (table : ObjectTable) (d : RawDict)
    (k : PyValue) (o : PdfObj) (h : rawDictGet d k = some (.pdf o)) :
    dictGetItem table d k = some (getObject table o)
    ∧ (∀ n g, o = PdfObj.indirectRef n g →
        dictGetItem table d k = some (resolveRef table [] (n, g)))
    ∧ (isRef o = false → dictGetItem table d k = some o)
    ∧ (∀ r, dictGetItem table d k = some r → isRef r = false) := by
  have hmain : dictGetItem table d k = some (getObject table o) := by
    unfold dictGetItem
    rw [h]
  refine ⟨hmain, ?_, ?_, ?_⟩
  · intro n g ho
    rw [hmain, ho]
    rfl
  · intro href
    rw [hmain]
    cases o with
    | indirectRef n g => simp [isRef] at href
    | nullObj => rfl
    | boolObj b => rfl
    | numObj n => rfl
    | realObj q => rfl
    | nameObj s => rfl
    | stringObj bs => rfl
    | arrayObj items => rfl
    | dictObj entries => rfl
  · intro r hr
    rw [hmain] at hr
    injection hr with h1
    rw [← h1]
    exact getObject_isRef_false table o

/-- Witness for C10: a key stored as an indirect reference to object
(1, 0) subscripts to that object's resolved value. -/
theorem claim_C10_witness :
    rawDictGet
        [(PyValue.pdf (PdfObj.nameObj "/Kids"), PyValue.pdf (PdfObj.indirectRef 1 0))]
        (PyValue.pdf (PdfObj.nameObj "/Kids"))
      = some (PyValue.pdf (PdfObj.indirectRef 1 0))
    ∧ (dictGetItem [(((1 : Nat), (0 : Nat)), PdfObj.numObj 7)]
          [(PyValue.pdf (PdfObj.nameObj "/Kids"), PyValue.pdf (PdfObj.indirectRef 1 0))]
          (PyValue.pdf (PdfObj.nameObj "/Kids"))
        = some (getObject [(((1 : Nat), (0 : Nat)), PdfObj.numObj 7)]
            (PdfObj.indirectRef 1 0))
      ∧ (∀ n g, PdfObj.indirectRef 1 0 = PdfObj.indirectRef n g →
          dictGetItem [(((1 : Nat), (0 : Nat)), PdfObj.numObj 7)]
            [(PyValue.pdf (PdfObj.nameObj "/Kids"), PyValue.pdf (PdfObj.indirectRef 1 0))]
            (PyValue.pdf (PdfObj.nameObj "/Kids"))
          = some (resolveRef [(((1 : Nat), (0 : Nat)), PdfObj.numObj 7)] [] (n, g)))
      ∧ (isRef (PdfObj.indirectRef 1 0) = false →
          dictGetItem [(((1 : Nat), (0 : Nat)), PdfObj.numObj 7)]
            [(PyValue.pdf (PdfObj.nameObj "/Kids"), PyValue.pdf (PdfObj.indirectRef 1 0))]
            (PyValue.pdf (PdfObj.nameObj "/Kids"))
          = some (PdfObj.indirectRef 1 0))
      ∧ (∀ r, dictGetItem [(((1 : Nat), (0 : Nat)), PdfObj.numObj 7)]
            [(PyValue.pdf (PdfObj.nameObj "/Kids"), PyValue.pdf (PdfObj.indirectRef 1 0))]
            (PyValue.pdf (PdfObj.nameObj "/Kids"))
          = some r → isRef r = false)) :=
  ⟨rfl,
    claim_C10_subscript_resolves
      [(((1 : Nat), (0 : Nat)), PdfObj.numObj 7)]
      [(PyValue.pdf (PdfObj.nameObj "/Kids"), PyValue.pdf (PdfObj.indirectRef 1 0))]
      (PyValue.pdf (PdfObj.nameObj "/Kids")) (PdfObj.indirectRef 1 0) rfl⟩

theorem rawDictInsert_wf (d : RawDict) (k v : PyValue) (hd : wfDict d)
    (hk : isPdfValue k = true) (hv : isPdfValue v = true) :
    wfDict (rawDictInsert d k v) := by
  induction d with
  | nil =>
    intro e he
    rw [rawDictInsert] at he
    rcases List.mem_singleton.mp he with rfl
    exact ⟨hk, hv⟩
  | cons p rest ih =>
    rcases p with ⟨k0, v0⟩
    intro e he
    rw [rawDictInsert] at he
    cases hbeq : pyValueBeq k k0 with
    | true =>
      simp only [hbeq, if_true] at he
      rcases List.mem_cons.mp he with heq | hmem
      · rw [heq]
        exact ⟨(hd (k0, v0) (List.mem_cons_self _ _)).1, hv⟩
      · exact hd e (List.mem_cons_of_mem _ hmem)
    | false =>
      simp only [hbeq, Bool.false_eq_true, if_false] at he
      rcases List.mem_cons.mp he with heq | hmem
      · rw [heq]
        exact hd (k0, v0) (List.mem_cons_self _ _)
      · exact ih (fun e2 he2 => hd e2 (List.mem_cons_of_mem _ he2)) e hmem

/-- Counterexample to C8 as stated: a hashable key that is a
`PdfObject` but not a Name (here a Number) is accepted by
`__setitem__` without a `ValueError`; and a Boolean key — a `PdfObject`
passing both `isinstance` gates — fails with `TypeError` inside
`dict.__setitem__` rather than `ValueError`, because `BooleanObject`
defines `__eq__` with no `__hash__` and is therefore unhashable. -/
theorem claim_C8_counterexample :
    (dictSetItem [] (PyValue.pdf (PdfObj.numObj 5)) (PyValue.pdf PdfObj.nullObj)
      = Except.ok [(PyValue.pdf (PdfObj.numObj 5), PyValue.pdf PdfObj.nullObj)])
    ∧ isNameValue (PyValue.pdf (PdfObj.numObj 5)) = false
    ∧ isPdfValue (PyValue.pdf (PdfObj.boolObj true)) = true
    ∧ dictSetItem [] (PyValue.pdf (PdfObj.boolObj true))
        (PyValue.pdf PdfObj.nullObj) = Except.error "unhashable type" :=
  ⟨rfl, rfl, rfl, rfl⟩

theorem rawDictSet_ok_wf (d : RawDict) (k v : PyValue) (d2 : RawDict)
    (hd : wfDict d) (hk : isPdfValue k = true) (hv : isPdfValue v = true)
    (hok : rawDictSet d k v = Except.ok d2) : wfDict d2 := by
  cases hh : pyValueHashable k with
  | false => simp [rawDictSet, hh] at hok
  | true =>
    have heq : rawDictSet d k v = Except.ok (rawDictInsert d k v) := by
      simp [rawDictSet, hh]
    rw [heq] at hok
    injection hok with h1
    rw [← h1]
    exact rawDictInsert_wf d k v hd hk hv

theorem dictSetItem_ok_wf (d : RawDict) (k v : PyValue) (d2 : RawDict)
    (hd : wfDict d) (hok : dictSetItem d k v = Except.ok d2) : wfDict d2 := by
  cases hk : isPdfValue k with
  | false => simp [dictSetItem, hk] at hok
  | true =>
    cases hv : isPdfValue v with
    | false => simp [dictSetItem, hk, hv] at hok
    | true =>
      have heq : dictSetItem d k v = rawDictSet d k v := by
        simp [dictSetItem, hk, hv]
      rw [heq] at hok
      exact rawDictSet_ok_wf d k v d2 hd hk hv hok

theorem applySetItems_wf (d : RawDict) (ops : List (PyValue × PyValue))
    (hd : wfDict d) : wfDict (applySetItems d ops) := by
  induction ops generalizing d with
  | nil => exact hd
  | cons op rest ih =>
    simp only [applySetItems, List.foldl_cons]
    cases hset : dictSetItem d op.1 op.2 with
    | ok d2 => exact ih d2 (dictSetItem_ok_wf d op.1 op.2 d2 hd hset)
    | error e => exact ih d hd

/-- Claim C8 (amended): `d[k] = v` raises a `ValueError` when the key
or the value is not a `PdfObject`; with both `PdfObject`s it succeeds
exactly when the key is hashable (so not only Name keys), while an
unhashable `PdfObject` key (Boolean, IndirectObject, Array, Dictionary)
raises `TypeError` inside `dict.__setitem__`; consequently after any
sequence of public mutations every stored key and value is a
`PdfObject`, never a raw host-language value. -/
theorem claim_C8_setitem_gate (d : RawDict) (k v : PyValue)
    (ops : List (PyValue × PyValue)) (hd : wfDict d) :
    ((∃ d2, dictSetItem d k v = Except.ok d2)
        ↔ isPdfValue k = true ∧ isPdfValue v = true
          ∧ pyValueHashable k = true)
    ∧ (isPdfValue k = false ∨ isPdfValue v = false →
        dictSetItem d k v = Except.error "key must be PdfObject"
        ∨ dictSetItem d k v = Except.error "value must be PdfObject")
    ∧ (isPdfValue k = true → isPdfValue v = true →
        pyValueHashable k = false →
        dictSetItem d k v = Except.error "unhashable type")
    ∧ (∀ d2, dictSetItem d k v = Except.ok d2 → wfDict d2)
    ∧ wfDict (applySetItems d ops) := by
  refine ⟨?_, ?_, ?_, ?_, applySetItems_wf d ops hd⟩
  · constructor
    · rintro ⟨d2, hok⟩
      cases hk : isPdfValue k with
      | false => simp [dictSetItem, hk] at hok
      | true =>
        cases hv : isPdfValue v with
        | false => simp [dictSetItem, hk, hv] at hok
        | true =>
          cases hh : pyValueHashable k with
          | false => simp [dictSetItem, rawDictSet, hk, hv, hh] at hok
          | true => exact ⟨rfl, rfl, rfl⟩
    · rintro ⟨hk, hv, hh⟩
      exact ⟨rawDictInsert d k v,
        by simp [dictSetItem, rawDictSet, hk, hv, hh]⟩
  · intro hor
    rcases hor with hk | hv
    · left
      simp [dictSetItem, hk]
    · cases hk : isPdfValue k with
      | false =>
        left
        simp [dictSetItem, hk]
      | true =>
        right
        simp [dictSetItem, hk, hv]
  · intro hk hv hh
    simp [dictSetItem, rawDictSet, hk, hv, hh]
  · intro d2 hok
    exact dictSetItem_ok_wf d k v d2 hd hok

/-- Witness for C8 (amended): inserting a Name key and a null value
into the empty dictionary succeeds and preserves well-formedness,
also under a mutation sequence containing rejected raw and unhashable
keys. -/
theorem claim_C8_witness :
    wfDict ([] : RawDict)
    ∧ (((∃ d2, dictSetItem [] (PyValue.pdf (PdfObj.nameObj "/Type"))
            (PyValue.pdf PdfObj.nullObj) = Except.ok d2)
        ↔ isPdfValue (PyValue.pdf (PdfObj.nameObj "/Type")) = true
          ∧ isPdfValue (PyValue.pdf PdfObj.nullObj) = true
          ∧ pyValueHashable (PyValue.pdf (PdfObj.nameObj "/Type")) = true)
      ∧ (isPdfValue (PyValue.pdf (PdfObj.nameObj "/Type")) = false
          ∨ isPdfValue (PyValue.pdf PdfObj.nullObj) = false →
          dictSetItem [] (PyValue.pdf (PdfObj.nameObj "/Type"))
            (PyValue.pdf PdfObj.nullObj)
              = Except.error "key must be PdfObject"
          ∨ dictSetItem [] (PyValue.pdf (PdfObj.nameObj "/Type"))
            (PyValue.pdf PdfObj.nullObj)
              = Except.error "value must be PdfObject")
      ∧ (isPdfValue (PyValue.pdf (PdfObj.nameObj "/Type")) = true →
          isPdfValue (PyValue.pdf PdfObj.nullObj) = true →
          pyValueHashable (PyValue.pdf (PdfObj.nameObj "/Type")) = false →
          dictSetItem [] (PyValue.pdf (PdfObj.nameObj "/Type"))
            (PyValue.pdf PdfObj.nullObj) = Except.error "unhashable type")
      ∧ (∀ d2, dictSetItem [] (PyValue.pdf (PdfObj.nameObj "/Type"))
            (PyValue.pdf PdfObj.nullObj) = Except.ok d2 → wfDict d2)
      ∧ wfDict (applySetItems []
          [(PyValue.pdf (PdfObj.nameObj "/Type"), PyValue.pdf PdfObj.nullObj),
            (PyValue.pyStr "raw", PyValue.pyInt 3),
            (PyValue.pdf (PdfObj.boolObj true),
              PyValue.pdf PdfObj.nullObj)])) :=
  ⟨fun e he => absurd he (List.not_mem_nil e),
    claim_C8_setitem_gate [] (PyValue.pdf (PdfObj.nameObj "/Type"))
      (PyValue.pdf PdfObj.nullObj)
      [(PyValue.pdf (PdfObj.nameObj "/Type"), PyValue.pdf PdfObj.nullObj),
        (PyValue.pyStr "raw", PyValue.pyInt 3),
        (PyValue.pdf (PdfObj.boolObj true), PyValue.pdf PdfObj.nullObj)]
      (fun e he => absurd he (List.not_mem_nil e))⟩

theorem dropWhile_eq_self_of_head {l : List Char} {p : Char → Bool}
    (h : ∀ c ∈ l, p c = false) : l.dropWhile p = l := by
  cases l with
  | nil => rfl
  | cons c cs =>
    rw [List.dropWhile_cons]
    simp [h c (List.mem_cons_self c cs)]

theorem stripChars_eq_self {l : List Char}
    (h : ∀ c ∈ l, isSpaceChar c = false) : stripChars l = l := by
  unfold stripChars
  rw [dropWhile_eq_self_of_head h,
    dropWhile_eq_self_of_head (fun c hc => h c (List.mem_reverse.mp hc)),
    List.reverse_reverse]

theorem isSpaceChar_false_of_digit {c : Char} (h : isDigitChar c = true) :
    isSpaceChar c = false := by
  simp only [isDigitChar, Bool.and_eq_true, decide_eq_true_eq] at h
  simp only [isSpaceChar, Bool.or_eq_false_iff, decide_eq_false_iff_not]
  omega

theorem scanUDigits_all_digits (l : List Char) :
    ∀ acc cnt, (∀ c ∈ l, isDigitChar c = true) →
      scanUDigits l acc cnt
        = some (l.foldl (fun a c => 10 * a + digitVal c) acc, cnt + l.length, []) := by
  induction l with
  | nil => intro acc cnt _; simp [scanUDigits]
  | cons c cs ih =>
    intro acc cnt h
    rw [scanUDigits.eq_def]
    simp only [h c (List.mem_cons_self c cs), if_true]
    rw [ih _ _ (fun c2 hc2 => h c2 (List.mem_cons_of_mem c hc2))]
    simp [List.length_cons]
    omega

theorem parseUDigits_all_digits (l : List Char) (hne : l ≠ [])
    (h : ∀ c ∈ l, isDigitChar c = true) :
    parseUDigits l = some (digitsVal l) := by
  rw [parseUDigits, scanUDigits_all_digits l 0 0 h]
  have hpos : 0 < 0 + l.length := by
    cases l with
    | nil => exact absurd rfl hne
    | cons c cs => simp
  simp [digitsVal, hpos, hne]

theorem toLower_eq_of_digit {c : Char} (h : isDigitChar c = true) : c.toLower = c := by
  simp only [isDigitChar, Bool.and_eq_true, decide_eq_true_eq] at h
  simp only [Char.toLower]
  rw [if_neg (by omega)]

theorem map_toLower_digits {dl : List Char}
    (h : ∀ c ∈ dl, isDigitChar c = true) : dl.map Char.toLower = dl := by
  induction dl with
  | nil => rfl
  | cons c cs ih =>
    rw [List.map_cons, toLower_eq_of_digit (h c (List.mem_cons_self c cs)),
      ih (fun c2 hc2 => h c2 (List.mem_cons_of_mem c hc2))]

theorem pyIntOfString_digits (dl : List Char) (hne : dl ≠ [])
    (hdl : ∀ c ∈ dl, isDigitChar c = true) :
    pyIntOfString (String.mk dl) = some ((digitsVal dl : Nat) : Int) := by
  have hstrip : stripChars (String.mk dl).toList = dl :=
    stripChars_eq_self (fun c hc => isSpaceChar_false_of_digit (hdl c hc))
  unfold pyIntOfString
  rw [hstrip]
  split
  next rest =>
    exact absurd (hdl '+' (List.mem_cons_self _ _)) (by decide)
  next rest =>
    exact absurd (hdl '-' (List.mem_cons_self _ _)) (by decide)
  next =>
    rw [parseUDigits_all_digits dl hne hdl]
    rfl

theorem pyIntOfString_neg_digits (dl : List Char) (hne : dl ≠ [])
    (hdl : ∀ c ∈ dl, isDigitChar c = true) :
    pyIntOfString (String.mk ('-' :: dl)) = some (-((digitsVal dl : Nat) : Int)) := by
  have hstrip : stripChars (String.mk ('-' :: dl)).toList = '-' :: dl := by
    apply stripChars_eq_self
    intro c hc
    rcases List.mem_cons.mp hc with rfl | hc2
    · decide
    · exact isSpaceChar_false_of_digit (hdl c hc2)
  unfold pyIntOfString
  rw [hstrip]
  split
  next rest heq =>
    injection heq with h1 h2
    exact absurd h1 (by decide)
  next rest heq =>
    injection heq with h1 h2
    rw [← h2, parseUDigits_all_digits dl hne hdl]
    rfl
  next hn1 hn2 =>
    exact absurd rfl (hn2 dl)

theorem parseSign_digits {dl : List Char}
    (hdl : ∀ c ∈ dl, isDigitChar c = true) : parseSign dl = (false, dl) := by
  unfold parseSign
  split
  next rest => exact absurd (hdl '+' (List.mem_cons_self _ _)) (by decide)
  next rest => exact absurd (hdl '-' (List.mem_cons_self _ _)) (by decide)
  next => rfl

theorem mkFloatRat_digits (v : Nat) :
    mkFloatRat false v 0 0 false 0 = ((v : Nat) : Rat) := by
  simp [mkFloatRat]

theorem pyFloatOfString_digits (dl : List Char) (hne : dl ≠ [])
    (hdl : ∀ c ∈ dl, isDigitChar c = true) :
    pyFloatOfString (String.mk dl) = some (.fin ((digitsVal dl : Nat) : Rat)) := by
  have hstrip : stripChars dl = dl :=
    stripChars_eq_self (fun c hc => isSpaceChar_false_of_digit (hdl c hc))
  have h1 : dl ≠ ['i', 'n', 'f'] := fun heq =>
    absurd (hdl 'i' (by rw [heq]; exact List.mem_cons_self _ _)) (by decide)
  have h2 : dl ≠ ['i', 'n', 'f', 'i', 'n', 'i', 't', 'y'] := fun heq =>
    absurd (hdl 'i' (by rw [heq]; exact List.mem_cons_self _ _)) (by decide)
  have h3 : dl ≠ ['n', 'a', 'n'] := fun heq =>
    absurd (hdl 'n' (by rw [heq]; exact List.mem_cons_self _ _)) (by decide)
  have hlen : 0 < dl.length := List.length_pos.mpr hne
  unfold pyFloatOfString
  simp [hstrip, parseSign_digits hdl, map_toLower_digits hdl, h1, h2, h3,
    scanUDigits_all_digits dl 0 0 hdl, mkFloatRat_digits, digitsVal, hne]

/-- Claim C9: constructing a Number (or Float) object from text never
aborts: when the host conversion accepts the text the object carries
the converted value with no warning, and when it rejects the text the
object carries the safe default 0 (0.0) and the warning flag; moreover
the conversions accept every plain (optionally negated) digit string
with its decimal value. -/
theorem claim_C9_number_defaults (s : String) (dl : List Char) (hne : dl ≠ [])
    (hdl : ∀ c ∈ dl, isDigitChar c = true) :
    (∀ n, pyIntOfString s = some n → numberObjectNew s = (n, false))
    ∧ (pyIntOfString s = none → numberObjectNew s = (0, true))
    ∧ (∀ v, pyFloatOfString s = some v → floatObjectNew s = (v, false))
    ∧ (pyFloatOfString s = none → floatObjectNew s = (PyFloat.fin 0, true))
    ∧ numberObjectNew (String.mk dl) = (((digitsVal dl : Nat) : Int), false)
    ∧ numberObjectNew (String.mk ('-' :: dl)) = (-((digitsVal dl : Nat) : Int), false)
    ∧ floatObjectNew (String.mk dl) = (PyFloat.fin ((digitsVal dl : Nat) : Rat), false) := by
  refine ⟨?_, ?_, ?_, ?_, ?_, ?_, ?_⟩
  · intro n h
    simp [numberObjectNew, h]
  · intro h
    simp [numberObjectNew, h]
  · intro v h
    simp [floatObjectNew, h]
  · intro h
    simp [floatObjectNew, h]
  · simp [numberObjectNew, pyIntOfString_digits dl hne hdl]
  · simp [numberObjectNew, pyIntOfString_neg_digits dl hne hdl]
  · simp [floatObjectNew, pyFloatOfString_digits dl hne hdl]

/-- Witness for C9: the digit text "42" constructs 42 without warning,
and the theorem's conversion clauses instantiated at the malformed text
"12abc" (whose conversions fail) give the defaulted, warned objects. -/
theorem claim_C9_witness :
    (['4', '2'] ≠ ([] : List Char))
    ∧ (∀ c ∈ ['4', '2'], isDigitChar c = true)
    ∧ ((∀ n, pyIntOfString "12abc" = some n → numberObjectNew "12abc" = (n, false))
      ∧ (pyIntOfString "12abc" = none → numberObjectNew "12abc" = (0, true))
      ∧ (∀ v, pyFloatOfString "12abc" = some v → floatObjectNew "12abc" = (v, false))
      ∧ (pyFloatOfString "12abc" = none → floatObjectNew "12abc" = (PyFloat.fin 0, true))
      ∧ numberObjectNew (String.mk ['4', '2']) = ((42 : Int), false)
      ∧ numberObjectNew (String.mk ('-' :: ['4', '2'])) = ((-42 : Int), false)
      ∧ floatObjectNew (String.mk ['4', '2']) = (PyFloat.fin (42 : Rat), false))
    ∧ pyIntOfString "12abc" = none
    ∧ numberObjectNew "12abc" = (0, true) := by
  refine ⟨by decide, by decide, ?_, ?_, ?_⟩
  · have h := claim_C9_number_defaults "12abc" ['4', '2'] (by decide) (by decide)
    have h42 : digitsVal ['4', '2'] = 42 := by decide
    rw [h42] at h
    exact_mod_cast h
  · decide
  · decide

theorem lzwLoop_nostop : ∀ (x : List Nat), (∀ b ∈ x, b < 256) →
    ∀ (pW : Nat) (extra : List (List Nat)) (junk : List Nat), junk.length < 9 →
    lzwLoop (lzwEncodeBodyBits x ++ junk) pW extra 9
      = Except.error "Missed the stop code in LZWDecode!" := by
  intro x
  induction x with
  | nil =>
    intro _ pW extra junk hj
    simp only [lzwEncodeBodyBits, List.flatMap_nil, List.nil_append]
    rw [lzwLoop]
    rw [dif_pos (Or.inl hj)]
  | cons b rest ih =>
    intro hx pW extra junk hj
    have hb : b < 256 := hx b (List.mem_cons_self b rest)
    have hbody : lzwEncodeBodyBits (b :: rest)
        = (natToBaseBE 2 9 256 ++ natToBaseBE 2 9 b) ++ lzwEncodeBodyBits rest := by
      simp [lzwEncodeBodyBits]
    rw [hbody, List.append_assoc, List.append_assoc]
    rw [lzwLoop_step_clear, lzwLoop_step_lit b hb _ []]
    rw [ih (fun e he => hx e (List.mem_cons_of_mem b he)) b [] junk hj]
    simp [Except.map]

theorem lzwDecode_encodeNoStop (x : List Nat) (hx : ∀ b ∈ x, b < 256) :
    lzwDecode (lzwEncodeNoStop x)
      = Except.error "Missed the stop code in LZWDecode!" := by
  unfold lzwDecode lzwEncodeNoStop
  have hb2 : ∀ d ∈ lzwEncodeBodyBits x, d < 2 := by
    intro d hd
    simp only [lzwEncodeBodyBits, List.mem_flatMap] at hd
    obtain ⟨b, _, hmem⟩ := hd
    rcases List.mem_append.mp hmem with h2 | h2
    · exact natToBaseBE_digit_lt 2 9 256 (by omega) d h2
    · exact natToBaseBE_digit_lt 2 9 b (by omega) d h2
  obtain ⟨m, hm, heq⟩ := bytesToBits_bitsToBytes (lzwEncodeBodyBits x) hb2
  rw [heq]
  exact lzwLoop_nostop x hx 256 [] (List.replicate m 0)
    (by rw [List.length_replicate]; omega)

/-- C4: for every byte string, including the empty string and strings
containing the codecs' reserved sentinel bytes, decoding the encoding
returns the input for each of the five filter codecs Flate, LZW,
ASCII85, ASCIIHex and RunLength. -/
theorem claim_C4_roundtrip (x : List Nat) (hx : ∀ b ∈ x, b < 256) :
    flateDecode (flateEncode x) = Except.ok x ∧
    lzwDecode (lzwEncode x) = Except.ok x ∧
    a85Decode (a85Encode x) = Except.ok x ∧
    asciiHexDecode (asciiHexEncode x) = Except.ok x ∧
    runLengthDecode (runLengthEncode x) = Except.ok x :=
  ⟨flateDecode_encode x, lzwDecode_encode x hx, a85Decode_encode x hx,
    asciiHexDecode_encode x hx, runLengthDecode_encode x⟩

theorem claim_C4_witness :
    (∀ b ∈ [122, 126, 62, 128, 0], b < 256) ∧
    (flateDecode (flateEncode [122, 126, 62, 128, 0])
        = Except.ok [122, 126, 62, 128, 0] ∧
      lzwDecode (lzwEncode [122, 126, 62, 128, 0])
        = Except.ok [122, 126, 62, 128, 0] ∧
      a85Decode (a85Encode [122, 126, 62, 128, 0])
        = Except.ok [122, 126, 62, 128, 0] ∧
      asciiHexDecode (asciiHexEncode [122, 126, 62, 128, 0])
        = Except.ok [122, 126, 62, 128, 0] ∧
      runLengthDecode (runLengthEncode [122, 126, 62, 128, 0])
        = Except.ok [122, 126, 62, 128, 0]) :=
  ⟨by decide, claim_C4_roundtrip [122, 126, 62, 128, 0] (by decide)⟩

/-- C5 counterexample: the LZW decoder modelled from the source's own
docstring raises `PdfReadError` ("Missed the stop code in LZWDecode!")
on a code stream that ends without the stop code 257, rather than
returning a best-effort truncated decode as the claim states.  The
stream below encodes the single byte 0 (clear code 256, literal 0,
no stop code), packing to the bytes `80 00 00`. -/
theorem claim_C5_counterexample :
    lzwEncodeNoStop [0] = [128, 0, 0] ∧
    lzwDecode (lzwEncodeNoStop [0])
      = Except.error "Missed the stop code in LZWDecode!" ∧
    ¬ ∃ out, lzwDecode (lzwEncodeNoStop [0]) = Except.ok out := by
  refine ⟨rfl, ?_, ?_⟩
  · exact lzwDecode_encodeNoStop [0] (by decide)
  · intro ⟨out, hout⟩
    rw [lzwDecode_encodeNoStop [0] (by decide)] at hout
    exact Except.noConfusion hout

/-- C5 (amended): the decoder modelled from the source docstring treats
a missing stop code as a fatal `PdfReadError`: decoding a code stream
that ends without the stop code 257 raises, while a stream containing
the stop code terminates decoding at that code and yields the encoded
bytes. -/
theorem claim_C5_missing_stop_raises (x : List Nat) (hx : ∀ b ∈ x, b < 256) :
    lzwDecode (lzwEncodeNoStop x)
      = Except.error "Missed the stop code in LZWDecode!" ∧
    lzwDecode (lzwEncode x) = Except.ok x :=
  ⟨lzwDecode_encodeNoStop x hx, lzwDecode_encode x hx⟩

theorem claim_C5_witness :
    (∀ b ∈ [7, 7, 7], b < 256) ∧
    (lzwDecode (lzwEncodeNoStop [7, 7, 7])
        = Except.error "Missed the stop code in LZWDecode!" ∧
      lzwDecode (lzwEncode [7, 7, 7]) = Except.ok [7, 7, 7]) :=
  ⟨by decide, claim_C5_missing_stop_raises [7, 7, 7] (by decide)⟩

theorem md5_length (msg : List Nat) : (md5 msg).length = 16 := by
  unfold md5
  rcases h : md5Chunks (1732584193, 4023233417, 2562383102, 271733878)
    (md5Pad msg) with ⟨a, b, c, d⟩
  simp [h, natToLE_length]

theorem md5TruncTimes_length (n : Nat) : ∀ (k : Nat) (d : List Nat), 1 ≤ k →
    (md5TruncTimes n k d).length = 16 := by
  intro k
  induction k with
  | zero =>
    intro d h
    omega
  | succ j ih =>
    intro d _
    rw [show md5TruncTimes n (j + 1) d
      = md5TruncTimes n j (md5 (d.take n)) from rfl]
    cases j with
    | zero => simp [md5TruncTimes, md5_length]
    | succ i => exact ih (md5 (d.take n)) (by omega)

theorem rc4Prga_length : ∀ (n : Nat) (s : List Nat) (i j : Nat),
    (rc4Prga s i j n).length = n := by
  intro n
  induction n with
  | zero =>
    intro s i j
    rfl
  | succ m ih =>
    intro s i j
    rw [rc4Prga]
    simp only [List.length_cons]
    rw [ih]

theorem rc4_length (key x : List Nat) : (rc4 key x).length = x.length := by
  unfold rc4
  rw [List.length_zipWith, rc4Prga_length]
  omega

theorem zipWith_xor_cancel : ∀ (x ks : List Nat), x.length ≤ ks.length →
    List.zipWith Nat.xor (List.zipWith Nat.xor x ks) ks = x := by
  intro x
  induction x with
  | nil =>
    intro ks _
    simp
  | cons a as ih =>
    intro ks hlen
    cases ks with
    | nil => simp at hlen
    | cons k kss =>
      simp only [List.zipWith_cons_cons]
      rw [ih kss (by simpa using hlen)]
      congr 1
      show a ^^^ k ^^^ k = a
      rw [Nat.xor_assoc, Nat.xor_self, Nat.xor_zero]

theorem rc4_rc4 (key x : List Nat) : rc4 key (rc4 key x) = x := by
  have hlen : (rc4 key x).length = x.length := rc4_length key x
  show List.zipWith Nat.xor (rc4 key x)
    (rc4Prga (rc4Ksa key) 0 0 (rc4 key x).length) = x
  rw [hlen]
  unfold rc4
  exact zipWith_xor_cancel x _ (by rw [rc4Prga_length])

theorem foldl_reverse_involution {α : Type} (f : α → Nat → α)
    (hf : ∀ a i, f (f a i) i = a) :
    ∀ (l : List Nat) (x : α), l.reverse.foldl f (l.foldl f x) = x := by
  intro l
  induction l using List.reverseRecOn with
  | nil =>
    intro x
    rfl
  | append_singleton l i ih =>
    intro x
    rw [List.foldl_append, List.reverse_append]
    simp only [List.foldl_nil, List.reverse_cons, List.reverse_nil,
      List.nil_append, List.singleton_append, List.foldl_cons]
    rw [hf]
    exact ih x

theorem xorKey_zero (key : List Nat) : xorKey key 0 = key := by
  unfold xorKey
  simp

theorem rc4Rounds_reverse_cancel (key : List Nat) (is : List Nat)
    (x : List Nat) :
    rc4Rounds key is.reverse (rc4Rounds key is x) = x :=
  foldl_reverse_involution (fun acc i => rc4 (xorKey key i) acc)
    (fun a i => rc4_rc4 (xorKey key i) a) is x

theorem computeOValue_cancel (key u : List Nat) :
    rc4Rounds key (List.range 20).reverse (computeOValue key u 3)
      = padPassword u := by
  have henc : computeOValue key u 3
      = rc4Rounds key (List.range 20) (padPassword u) := by
    simp only [computeOValue]
    rw [if_pos (by omega)]
    rw [show List.range 20 = 0 :: (List.range 19).map (fun i => i + 1) from
      List.range_succ_eq_map 19]
    unfold rc4Rounds
    simp only [List.foldl_cons]
    rw [xorKey_zero]
  rw [henc]
  exact rc4Rounds_reverse_cancel key (List.range 20) (padPassword u)

theorem PASSWORD_PAD_length : PASSWORD_PAD.length = 32 := rfl

theorem padPassword_length (pw : List Nat) : (padPassword pw).length = 32 := by
  unfold padPassword
  rw [List.length_take, List.length_append, PASSWORD_PAD_length]
  omega

theorem padPassword_idem (pw : List Nat) :
    padPassword (padPassword pw) = padPassword pw := by
  have h0 := List.take_left (padPassword pw) PASSWORD_PAD
  rw [padPassword_length] at h0
  show (padPassword pw ++ PASSWORD_PAD).take 32 = padPassword pw
  exact h0

theorem computeKey_pad (p1 p2 : List Nat) (rev keySize : Nat)
    (oEntry : List Nat) (P : Nat) (id1Entry : List Nat)
    (metadataEncrypted : Bool) (h : padPassword p1 = padPassword p2) :
    computeKey p1 rev keySize oEntry P id1Entry metadataEncrypted
      = computeKey p2 rev keySize oEntry P id1Entry metadataEncrypted := by
  unfold computeKey
  rw [h]

theorem computeKey_rev3_length (pw oEntry : List Nat) (P : Nat)
    (id1Entry : List Nat) (m : Bool) :
    (computeKey pw 3 128 oEntry P id1Entry m).length = 16 := by
  simp only [computeKey]
  rw [if_neg (show ¬ ((3 : Nat) = 2) by omega),
    if_pos (show (3 : Nat) ≤ 3 by omega)]
  rw [List.length_take]
  rw [md5TruncTimes_length (128 / 8) 50 _ (by omega)]
  omega

/-- C1: `AlgV4.compute_key` computes the revision 2–4 key exactly as
the claim describes: MD5 over padded-password ‖ O ‖ P as 32-bit LE ‖
first ID entry (with the 0xFFFFFFFF block when metadata is unencrypted
at revision ≥ 4), fifty truncated re-hashes for revision ≥ 3, and the
first N bytes with N = 5 at revision 2 and Length/8 otherwise. -/
theorem claim_C1_compute_key (password oEntry id1Entry : List Nat)
    (rev keySize P : Nat) (metadataEncrypted : Bool)
    (h2 : 2 ≤ rev) (h4 : rev ≤ 4) :
    computeKey password rev keySize oEntry P id1Entry metadataEncrypted
      = computeKeySpec password rev keySize oEntry P id1Entry
          metadataEncrypted := by
  simp only [computeKey, computeKeySpec]
  by_cases hc : 4 ≤ rev ∧ metadataEncrypted = false
  · obtain ⟨hrev4, hmd⟩ := hc
    simp [hmd, hrev4, List.append_assoc]
  · have h2c : ¬ (metadataEncrypted = false ∧ 4 ≤ rev) := fun h => hc ⟨h.2, h.1⟩
    simp [hc, h2c, List.append_assoc]

theorem claim_C1_witness :
    (2 ≤ 3 ∧ 3 ≤ 4) ∧
    computeKey [1, 2] 3 128 [5, 6] 7 [9] false
      = computeKeySpec [1, 2] 3 128 [5, 6] 7 [9] false :=
  ⟨⟨by omega, by omega⟩,
    claim_C1_compute_key [1, 2] [5, 6] [9] 3 128 7 false (by omega) (by omega)⟩

/-- C2: `AlgV5.verify_perms` accepts exactly when the AES-256-ECB
decryption of the Perms string has bytes 9–11 equal to `adb` and its
first four bytes, read little-endian, equal the permission value; and
for a Perms string produced by `AlgV5.compute_Perms_value` with the
same key (any cipher pair satisfying decrypt ∘ encrypt = id) the check
passes, so the recovered permission bits equal the `/P` supplied at
encrypt time. -/
theorem claim_C2_verify_perms (aesEnc aesDec : List Nat → List Nat → List Nat)
    (hinv : ∀ k b, aesDec k (aesEnc k b) = b)
    (key perms : List Nat) (p : Nat) (hp : p < 4294967296)
    (metadataEncrypted : Bool) (rand4 : List Nat) :
    (verifyPerms aesDec key perms p = true ↔
      ((aesDec key perms).drop 9).take 3 = [97, 100, 98] ∧
        leToNat ((aesDec key perms).take 4) = p) ∧
    verifyPerms aesDec key
      (computePermsValue aesEnc key p metadataEncrypted rand4) p = true := by
  constructor
  · simp [verifyPerms]
  · simp only [verifyPerms, computePermsValue, hinv]
    have hA : (natToLE 4 p).length = 4 := natToLE_length 4 p
    have hblk : natToLE 4 p ++ [255, 255, 255, 255]
        ++ [if metadataEncrypted then 84 else 70] ++ [97, 100, 98] ++ rand4
        = natToLE 4 p ++ (255 :: 255 :: 255 :: 255
          :: (if metadataEncrypted then 84 else 70) :: 97 :: 100 :: 98
          :: rand4) := by
      simp
    rw [hblk]
    have hdrop : (natToLE 4 p ++ (255 :: 255 :: 255 :: 255
        :: (if metadataEncrypted then 84 else 70) :: 97 :: 100 :: 98
        :: rand4)).drop 9
        = 97 :: 100 :: 98 :: rand4 := by
      rw [show (9 : Nat) = (natToLE 4 p).length + 5 from by rw [hA],
        List.drop_append]
      rfl
    have htake : (natToLE 4 p ++ (255 :: 255 :: 255 :: 255
        :: (if metadataEncrypted then 84 else 70) :: 97 :: 100 :: 98
        :: rand4)).take 4 = natToLE 4 p := by
      have h0 := List.take_left (natToLE 4 p) (255 :: 255 :: 255 :: 255
        :: (if metadataEncrypted then 84 else 70) :: 97 :: 100 :: 98
        :: rand4)
      rw [hA] at h0
      exact h0
    rw [hdrop, htake]
    have hle : leToNat (natToLE 4 p) = p := by
      rw [leToNat_natToLE]
      exact Nat.mod_eq_of_lt (by norm_num; omega)
    simp [hle]

theorem claim_C2_witness :
    (∀ (k b : List Nat),
      (fun (_ : List Nat) (blk : List Nat) => blk) k
        ((fun (_ : List Nat) (blk : List Nat) => blk) k b) = b) ∧
    (4 : Nat) < 4294967296 ∧
    ((verifyPerms (fun _ blk => blk) [1] [2] 4 = true ↔
      (((fun (_ : List Nat) (blk : List Nat) => blk) [1] [2]).drop 9).take 3
          = [97, 100, 98] ∧
        leToNat (((fun (_ : List Nat) (blk : List Nat) => blk) [1] [2]).take 4)
          = 4) ∧
    verifyPerms (fun _ blk => blk) [1]
      (computePermsValue (fun _ blk => blk) [1] 4 true [8, 8, 8, 8]) 4
      = true) :=
  ⟨fun _ _ => rfl, by omega,
    claim_C2_verify_perms (fun _ blk => blk) (fun _ blk => blk)
      (fun _ _ => rfl) [1] [2] 4 (by omega) true [8, 8, 8, 8]⟩

theorem verifyUser_mkDocV4_ne_nil (userPw ownerPw pw : List Nat) (P : Nat)
    (id1 : List Nat) (m : Bool) (hpad : padPassword pw = padPassword userPw) :
    verifyUserPasswordV4 pw 3 128
      (computeOValue (computeOValueKey ownerPw 3 128) userPw 3)
      (computeUValue (computeKey userPw 3 128
        (computeOValue (computeOValueKey ownerPw 3 128) userPw 3) P id1 m) 3)
      P id1 m ≠ [] := by
  simp only [verifyUserPasswordV4]
  rw [computeKey_pad pw userPw 3 128 _ P id1 m hpad]
  rw [if_neg (show ¬ ((3 : Nat) = 2) by omega)]
  rw [beq_self_eq_true]
  rw [if_pos rfl]
  intro hnil
  have hlen := congrArg List.length hnil
  rw [computeKey_rev3_length] at hlen
  simp at hlen

attribute [irreducible] md5 rc4Ksa rc4Prga rc4 computeKey computeOValueKey
attribute [irreducible] computeOValue computeUValue verifyUserPasswordV4
attribute [irreducible] verifyOwnerPasswordV4

/-- C3: the password check returns a typed result and never raises:
the result is always one of the three `PasswordType` values; it is
`userPassword` exactly when the user-password check succeeds,
`ownerPassword` when only the owner-password check succeeds, and
`notDecrypted` when both fail; and for a document constructed at
revision 3 with a user and an owner password, decrypting with the user
password yields `userPassword` and decrypting with the owner password
succeeds (is never `notDecrypted`). -/
theorem claim_C3_decrypt_password_type (doc : DocV4) (password : List Nat) :
    (readerDecrypt doc password = PasswordType.userPassword ∨
     readerDecrypt doc password = PasswordType.ownerPassword ∨
     readerDecrypt doc password = PasswordType.notDecrypted) ∧
    (verifyUserPasswordV4 password doc.rev doc.keySize doc.oEntry doc.uEntry
        doc.P doc.id1 doc.metadataEncrypted ≠ [] →
      readerDecrypt doc password = PasswordType.userPassword) ∧
    (verifyUserPasswordV4 password doc.rev doc.keySize doc.oEntry doc.uEntry
        doc.P doc.id1 doc.metadataEncrypted = [] →
      verifyOwnerPasswordV4 password doc.rev doc.keySize doc.oEntry doc.uEntry
        doc.P doc.id1 doc.metadataEncrypted ≠ [] →
      readerDecrypt doc password = PasswordType.ownerPassword) ∧
    (verifyUserPasswordV4 password doc.rev doc.keySize doc.oEntry doc.uEntry
        doc.P doc.id1 doc.metadataEncrypted = [] →
      verifyOwnerPasswordV4 password doc.rev doc.keySize doc.oEntry doc.uEntry
        doc.P doc.id1 doc.metadataEncrypted = [] →
      readerDecrypt doc password = PasswordType.notDecrypted) ∧
    (∀ (userPw ownerPw : List Nat) (P2 : Nat) (id12 : List Nat) (m : Bool),
      readerDecrypt (mkDocV4 userPw ownerPw P2 id12 m) userPw
        = PasswordType.userPassword ∧
      readerDecrypt (mkDocV4 userPw ownerPw P2 id12 m) ownerPw
        ≠ PasswordType.notDecrypted) := by
  refine ⟨?_, ?_, ?_, ?_, ?_⟩
  · unfold readerDecrypt encryptionVerify
    by_cases h1 : verifyUserPasswordV4 password doc.rev doc.keySize doc.oEntry
        doc.uEntry doc.P doc.id1 doc.metadataEncrypted = []
    · by_cases h2 : verifyOwnerPasswordV4 password doc.rev doc.keySize
          doc.oEntry doc.uEntry doc.P doc.id1 doc.metadataEncrypted = []
      · right
        right
        rw [if_neg (fun hc => hc h1), if_neg (fun hc => hc h2)]
      · right
        left
        rw [if_neg (fun hc => hc h1), if_pos h2]
    · left
      rw [if_pos h1]
  · intro h
    unfold readerDecrypt encryptionVerify
    rw [if_pos h]
  · intro h1 h2
    unfold readerDecrypt encryptionVerify
    rw [if_neg (fun hc => hc h1), if_pos h2]
  · intro h1 h2
    unfold readerDecrypt encryptionVerify
    rw [if_neg (fun hc => hc h1), if_neg (fun hc => hc h2)]
  · intro userPw ownerPw P2 id12 m
    constructor
    · unfold readerDecrypt encryptionVerify
      rw [show mkDocV4 userPw ownerPw P2 id12 m = (⟨3, 128,
        computeOValue (computeOValueKey ownerPw 3 128) userPw 3,
        computeUValue (computeKey userPw 3 128
          (computeOValue (computeOValueKey ownerPw 3 128) userPw 3)
          P2 id12 m) 3, P2, id12, m⟩ : DocV4) from rfl]
      rw [if_pos (verifyUser_mkDocV4_ne_nil userPw ownerPw userPw P2 id12 m
        rfl)]
    · unfold readerDecrypt encryptionVerify
      rw [show mkDocV4 userPw ownerPw P2 id12 m = (⟨3, 128,
        computeOValue (computeOValueKey ownerPw 3 128) userPw 3,
        computeUValue (computeKey userPw 3 128
          (computeOValue (computeOValueKey ownerPw 3 128) userPw 3)
          P2 id12 m) 3, P2, id12, m⟩ : DocV4) from rfl]
      by_cases h1 : verifyUserPasswordV4 ownerPw 3 128
          (computeOValue (computeOValueKey ownerPw 3 128) userPw 3)
          (computeUValue (computeKey userPw 3 128
            (computeOValue (computeOValueKey ownerPw 3 128) userPw 3)
            P2 id12 m) 3) P2 id12 m = []
      · rw [if_neg (fun hc => hc h1)]
        have hown : verifyOwnerPasswordV4 ownerPw 3 128
            (computeOValue (computeOValueKey ownerPw 3 128) userPw 3)
            (computeUValue (computeKey userPw 3 128
              (computeOValue (computeOValueKey ownerPw 3 128) userPw 3)
              P2 id12 m) 3) P2 id12 m ≠ [] := by
          simp only [verifyOwnerPasswordV4]
          rw [if_pos (show (3 : Nat) ≤ 3 by omega)]
          rw [computeOValue_cancel]
          exact verifyUser_mkDocV4_ne_nil userPw ownerPw (padPassword userPw)
            P2 id12 m (padPassword_idem userPw)
        rw [if_pos hown]
        decide
      · rw [if_pos h1]
        decide

end Pypdf
